import Mathlib

/-!
A shallow embedding of the fuel-dispenser queue simulation from `src/main.py`,
together with proofs about its selection policy, queue invariants, event
ordering, service-time model, parsing and error behaviour.

Modelling conventions:
* Python `dict`s are association lists in insertion order.  Assignment to an
  existing key replaces the value in place; assignment to a fresh key appends.
* Timestamps (`datetime` at minute resolution) are `Nat` minutes since 00:00.
  `datetime` ordering coincides with minute ordering, and a `timedelta` past
  midnight only grows the minute count, so `Nat` is faithful.
* Python `int` is `Int`; the fuel prices (floats `38.0`, `60.5`, `65.0`,
  `82.3` in the source) are represented exactly as integer tenths of a
  ruble, and `total_revenue` is therefore an integer count of tenths.  No
  claim depends on float rounding: prices only enter through exact lookups
  and through revenue sums that are never compared across different runs.
* `random.choice([-1, 0, 1])` is an injected variation source
  `var : Nat → Int` indexed by the number of accepted requests so far
  (the spec, section 8, prescribes exactly this injection for testing).
* Code paths that raise `KeyError` / `TypeError` in Python are modelled as
  `Except.error`; an unhandled exception aborts the run.
* The `while` drain loops run at most `finish_events.length` iterations
  (each iteration deletes one key), so they are written with that exact
  iteration budget as structural fuel.
-/

/-- One fuel dispenser ("automate"): the dictionary value built by
`get_information` in `src/main.py`.  The `current_client` field of the source
is always `None` and never read, so it is omitted. -/
structure Automate where
  max_queue : Int
  brands : List String
  queue : Int
  previous_time : Nat
deriving DecidableEq

/-- One parsed customer request, as produced by `get_request`. -/
structure Request where
  time : Nat
  volume : Int
  brand : String
deriving DecidableEq

/-- The value stored in `finish_events` for a scheduled completion. -/
structure FinishInfo where
  num : Int
  arrival_time : Nat
  brand : String
  volume : Int
  duration : Int
deriving DecidableEq

section Dict

variable {κ ν : Type} [DecidableEq κ]

/-- Python dict lookup `d[k]` as an `Option` (first entry with the key). -/
def dictGet (d : List (κ × ν)) (k : κ) : Option ν :=
  (d.find? (fun p => decide (p.1 = k))).map Prod.snd

/-- Python dict assignment `d[k] = v`: replace in place if the key exists,
otherwise append. -/
def dictInsert (d : List (κ × ν)) (k : κ) (v : ν) : List (κ × ν) :=
  if d.any (fun p => decide (p.1 = k)) then
    d.map (fun p => if p.1 = k then (k, v) else p)
  else
    d ++ [(k, v)]

/-- Python `del d[k]`. -/
def dictRemove (d : List (κ × ν)) (k : κ) : List (κ × ν) :=
  d.filter (fun p => decide (¬ p.1 = k))

end Dict

/-- Split a character list at every separator character, keeping empty
chunks (the character-level core of Python's `str.split`). -/
def splitChars (p : Char → Bool) : List Char → List (List Char)
  | [] => [[]]
  | c :: cs =>
    if p c then [] :: splitChars p cs
    else
      match splitChars p cs with
      | [] => [[c]]
      | w :: ws => (c :: w) :: ws

/-- Python `str.split()` (split on whitespace runs, dropping empties). -/
def splitWhitespace (s : String) : List String :=
  ((splitChars Char.isWhitespace s.data).map (fun w => String.mk w)).filter
    (fun t => decide (t ≠ ""))

/-- Python `bool(line.strip())`: the line contains a non-whitespace
character. -/
def strNonblank (s : String) : Bool :=
  s.data.any (fun c => !c.isWhitespace)

/-- A nonempty all-digit character list read as a decimal number. -/
def digitsToNat? (cs : List Char) : Option Nat :=
  if cs ≠ [] ∧ cs.all Char.isDigit then
    some (cs.foldl (fun n c => n * 10 + (c.toNat - 48)) 0)
  else none

/-- Python `int(s)` for a plain decimal string with an optional minus sign
(surrounding whitespace and digit-group underscores are not modelled). -/
def strToInt? (s : String) : Option Int :=
  match s.data with
  | [] => none
  | c :: rest =>
    if c = '-' then (digitsToNat? rest).map (fun n => -(n : Int))
    else (digitsToNat? (c :: rest)).map (fun n => (n : Int))

/-- `datetime.strptime(s, "%H:%M")`, returned as minutes since 00:00:
one or two digits for the hour (0–23) and for the minute (0–59),
separated by a colon. -/
def parseTime (s : String) : Option Nat :=
  match splitChars (fun c => c = ':') s.data with
  | [h, m] =>
    if 1 ≤ h.length && h.length ≤ 2 && 1 ≤ m.length && m.length ≤ 2 then
      match digitsToNat? h, digitsToNat? m with
      | some hv, some mv => if hv < 24 && mv < 60 then some (hv * 60 + mv) else none
      | _, _ => none
    else none
  | _ => none

/-- `get_request` from `src/main.py`: a request line must split into exactly
three fields (time, volume, brand); a parse failure yields `none`
(the source prints a warning and returns `None`). -/
def get_request (line : String) : Option Request :=
  match splitWhitespace line with
  | [time_str, volume_str, brand] =>
    match parseTime time_str, strToInt? volume_str with
    | some t, some v => some { time := t, volume := v, brand := brand }
    | _, _ => none
  | _ => none

/-- One line of the catalog, as consumed by the loop body of
`get_information`: `id max_queue brand...`; fewer than three fields or a
failed integer conversion skips the line (`none`). -/
def parseCatalogLine (line : String) : Option (Int × Automate) :=
  match splitWhitespace line with
  | p0 :: p1 :: b :: rest =>
    match strToInt? p0, strToInt? p1 with
    | some num, some mq =>
      some (num, { max_queue := mq, brands := b :: rest, queue := 0, previous_time := 0 })
    | _, _ => none
  | _ => none

/-- The loop body of `get_information`: parse one line; on failure keep the
dictionary unchanged (skip + warn), on success store the automate under its
number. -/
def catalogStep (d : List (Int × Automate)) (l : String) : List (Int × Automate) :=
  match parseCatalogLine l with
  | none => d
  | some (n, a) => dictInsert d n a

/-- `get_information` from `src/main.py`.  The data source is either the list
of lines of the file or a read failure.  A read failure is caught inside the
function (`except FileNotFoundError` / `except Exception`): an error message
is printed and the dictionary built so far — empty, since `open` fails before
any line is read — is returned.  Malformed lines are skipped. -/
def get_information (source : Except String (List String)) : List (Int × Automate) :=
  match source with
  | .error _ => []
  | .ok lines =>
    (lines.filter strNonblank).foldl catalogStep []

/-- `suitable_automates` from `src/main.py`: the sub-dictionary of automates
whose brand list contains the request brand (the `brand is None` branch is
unreachable for a structurally well-formed `Request`). -/
def suitable_automates (request : Request) (automates : List (Int × Automate)) :
    List (Int × Automate) :=
  automates.filter (fun p => decide (request.brand ∈ p.2.brands))

/-- The fold computing Python `min(keys, key=lambda x: queue[x])` over a
nonempty dict: iterate in insertion order, replacing the current best only on
a strictly smaller queue, so ties keep the earlier entry. -/
def pickMin (x : Int × Automate) (xs : List (Int × Automate)) : Int × Automate :=
  xs.foldl (fun best p => if p.2.queue < best.2.queue then p else best) x

/-- `automate_num` from `src/main.py`: among the suitable automates with
`queue < max_queue`, the one with minimal queue (insertion-order tie-break);
`0` when there is none. -/
def automate_num (suitable : List (Int × Automate)) : Int :=
  match suitable with
  | [] => 0
  | _ :: _ =>
    match suitable.filter (fun p => decide (p.2.queue < p.2.max_queue)) with
    | [] => 0
    | x :: xs => (pickMin x xs).1

/-- `math.ceil(volume / 10)` on integers.  (The source divides in floating
point first; for the integer volumes of this program the result is the exact
ceiling.) -/
def ceilTen (volume : Int) : Int := (volume + 9).fdiv 10

/-- `refuel_time` from `src/main.py`, with the `random.choice([-1, 0, 1])`
draw injected as the `variation` argument. -/
def refuel_time (volume : Int) (variation : Int) : Int :=
  max 1 (ceilTen volume + variation)

/-- The hardcoded price table of `main` (`38.0`, `60.5`, `65.0`, `82.3`
rubles, stored exactly as tenths of a ruble). -/
def petrol_prices : List (String × Int) :=
  [("АИ-80", 380), ("АИ-92", 605), ("АИ-95", 650), ("АИ-98", 823)]

/-- The four brand keys of the hardcoded statistics dictionaries in `main`. -/
def BRANDS : List String := ["АИ-80", "АИ-92", "АИ-95", "АИ-98"]

/-- The mutable state of `main`'s simulation loop. `draws` counts calls to
the variation source (one per accepted request). -/
structure SimState where
  automates : List (Int × Automate)
  finish_events : List (Nat × FinishInfo)
  fuel_sold : List (String × Int)
  total_revenue : Int
  lost_clients : Nat
  lost_by_brand : List (String × Nat)
  draws : Nat
deriving DecidableEq

/-- The state at the top of `main`: statistics dictionaries over the four
brands, no pending events, and the loaded automates. -/
def initState (automates : List (Int × Automate)) : SimState :=
  { automates := automates
    finish_events := []
    fuel_sold := [("АИ-80", 0), ("АИ-92", 0), ("АИ-95", 0), ("АИ-98", 0)]
    total_revenue := 0
    lost_clients := 0
    lost_by_brand := [("АИ-80", 0), ("АИ-92", 0), ("АИ-95", 0), ("АИ-98", 0)]
    draws := 0 }

/-- One observable step of the run, mirroring the console output points of
`main`: a drained completion or a handled arrival, each carrying the
dispenser snapshot printed by `print_automates_state` just after it. An
arrival also records the pending completion times at the moment it is
handled and whether the customer was lost. -/
inductive LogEntry where
  | finish (time : Nat) (info : FinishInfo) (snapshot : List (Int × Automate))
  | arrive (time : Nat) (pending : List Nat) (lost : Bool) (snapshot : List (Int × Automate))
deriving DecidableEq

/-- The dispenser snapshot attached to a log entry. -/
def snapshotOf : LogEntry → List (Int × Automate)
  | .finish _ _ s => s
  | .arrive _ _ _ s => s

/-- The completion times of the drained events of a log, in drain order. -/
def finishTimes (l : List LogEntry) : List Nat :=
  l.filterMap (fun e => match e with
    | .finish t _ _ => some t
    | .arrive _ _ _ _ => none)

/-- Python `min(finish_events.keys())` (unspecified on an empty dict, which
the source never queries). -/
def minKey : List (Nat × FinishInfo) → Nat
  | [] => 0
  | e :: tl => tl.foldl (fun m q => min m q.1) e.1

/-- The body of both drain loops of `main`: pop the earliest completion,
decrement its dispenser's queue, record the completion time as the
dispenser's `previous_time`, and delete the event.  A missing automate key
would be a Python `KeyError`. -/
def applyFinish (s : SimState) : Except String (LogEntry × SimState) :=
  let ft := minKey s.finish_events
  match dictGet s.finish_events ft with
  | none => .error "KeyError finish_events"
  | some info =>
    match dictGet s.automates info.num with
    | none => .error "KeyError automates"
    | some a =>
      let a1 : Automate := { a with queue := a.queue - 1, previous_time := ft }
      let auts := dictInsert s.automates info.num a1
      .ok (LogEntry.finish ft info auts,
           { s with automates := auts, finish_events := dictRemove s.finish_events ft })

/-- The `while finish_events and min(finish_events.keys()) <= current_time`
loop, with an explicit iteration budget (each iteration deletes one key, so
`finish_events.length` iterations always suffice). -/
def drainStepsUpto : Nat → Nat → SimState → Except String (List LogEntry × SimState)
  | 0, _, s => .ok ([], s)
  | fuel + 1, t, s =>
    if s.finish_events = [] then .ok ([], s)
    else if minKey s.finish_events ≤ t then
      match applyFinish s with
      | .error e => .error e
      | .ok (entry, s1) =>
        match drainStepsUpto fuel t s1 with
        | .error e => .error e
        | .ok (l, s2) => .ok (entry :: l, s2)
    else .ok ([], s)

/-- Drain every pending completion due at or before time `t`. -/
def drainUpto (t : Nat) (s : SimState) : Except String (List LogEntry × SimState) :=
  drainStepsUpto s.finish_events.length t s

/-- The final `while finish_events` loop of `main`, with the same exact
iteration budget. -/
def drainStepsAll : Nat → SimState → Except String (List LogEntry × SimState)
  | 0, s => .ok ([], s)
  | fuel + 1, s =>
    if s.finish_events = [] then .ok ([], s)
    else
      match applyFinish s with
      | .error e => .error e
      | .ok (entry, s1) =>
        match drainStepsAll fuel s1 with
        | .error e => .error e
        | .ok (l, s2) => .ok (entry :: l, s2)

/-- Drain every remaining completion. -/
def drainAll (s : SimState) : Except String (List LogEntry × SimState) :=
  drainStepsAll s.finish_events.length s

/-- The per-arrival body of `main`'s request loop (after the due completions
have been drained).  A lost customer bumps the global and per-brand lost
counters (the latter is a `KeyError` for a brand outside the hardcoded four).
An accepted customer increments the chosen queue, schedules the completion at
`max(previous_time, arrival) + duration` — overwriting any event already
stored at that minute — and records sales and revenue (both `KeyError` for
an unknown brand). -/
def handleArrival (var : Nat → Int) (request : Request) (s : SimState) :
    Except String (List LogEntry × SimState) :=
  let suitable := suitable_automates request s.automates
  let chosen := automate_num suitable
  if chosen = 0 then
    match dictGet s.lost_by_brand request.brand with
    | none => .error "KeyError lost_clients_by_brand"
    | some c =>
      let s1 := { s with lost_clients := s.lost_clients + 1,
                         lost_by_brand := dictInsert s.lost_by_brand request.brand (c + 1) }
      .ok ([LogEntry.arrive request.time (s.finish_events.map Prod.fst) true s1.automates], s1)
  else
    let duration := refuel_time request.volume (var s.draws)
    match dictGet s.automates chosen with
    | none => .error "KeyError automates"
    | some a =>
      let a1 : Automate := { a with queue := a.queue + 1 }
      let auts := dictInsert s.automates chosen a1
      let start_time := max a.previous_time request.time
      let finish_time := start_time + duration.toNat
      let info : FinishInfo :=
        { num := chosen, arrival_time := request.time, brand := request.brand,
          volume := request.volume, duration := duration }
      let evs := dictInsert s.finish_events finish_time info
      match dictGet s.fuel_sold request.brand with
      | none => .error "KeyError fuel_sold"
      | some sold =>
        match dictGet petrol_prices request.brand with
        | none => .error "KeyError petrol_prices"
        | some price =>
          let s1 := { s with automates := auts, finish_events := evs,
                             fuel_sold := dictInsert s.fuel_sold request.brand (sold + request.volume),
                             total_revenue := s.total_revenue + request.volume * price,
                             draws := s.draws + 1 }
          .ok ([LogEntry.arrive request.time (s.finish_events.map Prod.fst) false auts], s1)

/-- One iteration of `main`'s request loop: drain the completions due at or
before the arrival, then handle the arrival. -/
def handle (var : Nat → Int) (request : Request) (s : SimState) :
    Except String (List LogEntry × SimState) :=
  match drainUpto request.time s with
  | .error e => .error e
  | .ok (l1, s1) =>
    match handleArrival var request s1 with
    | .error e => .error e
    | .ok (l2, s2) => .ok (l1 ++ l2, s2)

/-- `main`'s `for request in all_requests` loop. -/
def processRequests (var : Nat → Int) : List Request → SimState →
    Except String (List LogEntry × SimState)
  | [], s => .ok ([], s)
  | r :: rs, s =>
    match handle var r s with
    | .error e => .error e
    | .ok (l1, s1) =>
      match processRequests var rs s1 with
      | .error e => .error e
      | .ok (l2, s2) => .ok (l1 ++ l2, s2)

/-- The whole simulation: the request loop followed by the final drain. -/
def runSim (var : Nat → Int) (reqs : List Request) (s : SimState) :
    Except String (List LogEntry × SimState) :=
  match processRequests var reqs s with
  | .error e => .error e
  | .ok (l1, s1) =>
    match drainAll s1 with
    | .error e => .error e
    | .ok (l2, s2) => .ok (l1 ++ l2, s2)

/-- `all_requests.sort(key=lambda x: x['time'])` — a stable sort by arrival
time, as is Lean's insertion sort. -/
def sortRequests (reqs : List Request) : List Request :=
  List.insertionSort (fun a b => a.time ≤ b.time) reqs

/-- `main` from `src/main.py`, with the two input files passed as data: the
catalog source (or its read failure) and the request lines.  Request lines
are parsed to `Option Request` and collected in a list; if any line was
malformed the list holds a `None`, and `all_requests.sort(key=...)` raises
`TypeError` when the key function subscripts it — aborting the run. -/
def mainRun (var : Nat → Int) (catalogSource : Except String (List String))
    (requestLines : List String) : Except String (List LogEntry × SimState) :=
  let automates := get_information catalogSource
  let parsed := (requestLines.filter strNonblank).map get_request
  if parsed.all Option.isSome then
    runSim var (sortRequests parsed.reduceOption) (initState automates)
  else
    .error "TypeError (NoneType is not subscriptable) while sorting all_requests"

/-- Final dispenser registry of a completed run. -/
def finalAutomatesOf (r : Except String (List LogEntry × SimState)) :
    Option (List (Int × Automate)) :=
  match r with
  | .ok (_, s) => some s.automates
  | .error _ => none

/-- Final pending events of a completed run. -/
def finalEventsOf (r : Except String (List LogEntry × SimState)) :
    Option (List (Nat × FinishInfo)) :=
  match r with
  | .ok (_, s) => some s.finish_events
  | .error _ => none

/-- Final litres sold for one brand in a completed run. -/
def soldOf (r : Except String (List LogEntry × SimState)) (brand : String) : Option Int :=
  match r with
  | .ok (_, s) => dictGet s.fuel_sold brand
  | .error _ => none

/-- Final lost-customer count of a completed run. -/
def lostOf (r : Except String (List LogEntry × SimState)) : Option Nat :=
  match r with
  | .ok (_, s) => some s.lost_clients
  | .error _ => none

/-! ### Dictionary lemmas -/

section DictLemmas

variable {κ ν : Type} [DecidableEq κ]

theorem dictGet_nil (k : κ) : dictGet ([] : List (κ × ν)) k = none := rfl

theorem dictGet_cons (p : κ × ν) (d : List (κ × ν)) (k : κ) :
    dictGet (p :: d) k = if p.1 = k then some p.2 else dictGet d k := by
  unfold dictGet
  by_cases h : p.1 = k
  · rw [List.find?_cons_of_pos _ (by simpa using h), if_pos h]
    rfl
  · rw [List.find?_cons_of_neg _ (by simpa using h), if_neg h]

theorem dictGet_mem {d : List (κ × ν)} {k : κ} {v : ν}
    (h : dictGet d k = some v) : (k, v) ∈ d := by
  induction d with
  | nil => simp [dictGet_nil] at h
  | cons p d ih =>
    rw [dictGet_cons] at h
    by_cases hpk : p.1 = k
    · rw [if_pos hpk] at h
      have he : p = (k, v) := by
        obtain ⟨p1, p2⟩ := p
        simp only [Option.some.injEq] at h
        simp only at hpk
        rw [hpk, h]
      rw [he]
      exact List.mem_cons_self _ _
    · rw [if_neg hpk] at h
      exact List.mem_cons_of_mem p (ih h)

theorem dictGet_eq_none_iff {d : List (κ × ν)} {k : κ} :
    dictGet d k = none ↔ ∀ p ∈ d, p.1 ≠ k := by
  induction d with
  | nil => simp [dictGet_nil]
  | cons p d ih =>
    rw [dictGet_cons]
    by_cases hpk : p.1 = k
    · rw [if_pos hpk]
      simp [hpk]
    · rw [if_neg hpk]
      rw [ih]
      constructor
      · intro h q hq
        rcases List.mem_cons.mp hq with h1 | h1
        · exact h1 ▸ hpk
        · exact h q h1
      · intro h q hq
        exact h q (List.mem_cons_of_mem p hq)

theorem dictGet_isSome_of_mem {d : List (κ × ν)} {k : κ} {v : ν}
    (h : (k, v) ∈ d) : ∃ w, dictGet d k = some w := by
  cases hg : dictGet d k with
  | some w => exact ⟨w, rfl⟩
  | none => exact absurd rfl (dictGet_eq_none_iff.mp hg (k, v) h)

theorem dictGet_of_mem_nodup {d : List (κ × ν)} {k : κ} {v : ν}
    (hnd : (d.map Prod.fst).Nodup) (h : (k, v) ∈ d) : dictGet d k = some v := by
  induction d with
  | nil => cases h
  | cons p d ih =>
    simp only [List.map_cons, List.nodup_cons] at hnd
    rw [dictGet_cons]
    rcases List.mem_cons.mp h with h1 | h1
    · subst h1
      rw [if_pos rfl]
    · have hk : p.1 ≠ k := by
        intro he
        exact hnd.1 (he ▸ List.mem_map_of_mem Prod.fst h1)
      rw [if_neg hk]
      exact ih hnd.2 h1

theorem mem_dictInsert {d : List (κ × ν)} {k : κ} {v : ν} {p : κ × ν}
    (h : p ∈ dictInsert d k v) : p = (k, v) ∨ (p ∈ d ∧ p.1 ≠ k) := by
  unfold dictInsert at h
  by_cases hc : d.any (fun p => decide (p.1 = k))
  · rw [if_pos hc] at h
    rcases List.mem_map.mp h with ⟨q, hq, he⟩
    by_cases hqk : q.1 = k
    · rw [if_pos hqk] at he
      exact Or.inl he.symm
    · rw [if_neg hqk] at he
      exact Or.inr ⟨he ▸ hq, he ▸ hqk⟩
  · rw [if_neg hc] at h
    simp only [List.any_eq_true, decide_eq_true_eq, not_exists] at hc
    rcases List.mem_append.mp h with h1 | h1
    · refine Or.inr ⟨h1, ?_⟩
      have := hc p
      simp only [not_and] at this
      exact this h1
    · simp only [List.mem_singleton] at h1
      exact Or.inl h1

theorem self_mem_dictInsert (d : List (κ × ν)) (k : κ) (v : ν) :
    (k, v) ∈ dictInsert d k v := by
  unfold dictInsert
  by_cases hc : d.any (fun p => decide (p.1 = k))
  · rw [if_pos hc]
    simp only [List.any_eq_true, decide_eq_true_eq] at hc
    obtain ⟨q, hq, hqk⟩ := hc
    have hm : (if q.1 = k then (k, v) else q) ∈
        d.map (fun p => if p.1 = k then (k, v) else p) := List.mem_map_of_mem _ hq
    rwa [if_pos hqk] at hm
  · rw [if_neg hc]
    simp

theorem keys_dictInsert_superset {d : List (κ × ν)} {m : κ} (k : κ) (v : ν)
    (h : m ∈ d.map Prod.fst) : m ∈ (dictInsert d k v).map Prod.fst := by
  unfold dictInsert
  by_cases hc : d.any (fun p => decide (p.1 = k))
  · rw [if_pos hc]
    rcases List.mem_map.mp h with ⟨q, hq, he⟩
    have hm : (if q.1 = k then (k, v) else q) ∈
        d.map (fun p => if p.1 = k then (k, v) else p) := List.mem_map_of_mem _ hq
    by_cases hqk : q.1 = k
    · rw [if_pos hqk] at hm
      have : m = k := by rw [← he, hqk]
      subst this
      simpa using List.mem_map_of_mem Prod.fst hm
    · rw [if_neg hqk] at hm
      exact he ▸ List.mem_map_of_mem Prod.fst hm
  · rw [if_neg hc, List.map_append]
    exact List.mem_append_left _ h

theorem keys_dictInsert_mem {d : List (κ × ν)} {m : κ} {k : κ} {v : ν}
    (h : m ∈ (dictInsert d k v).map Prod.fst) : m = k ∨ m ∈ d.map Prod.fst := by
  rcases List.mem_map.mp h with ⟨p, hp, he⟩
  rcases mem_dictInsert hp with h1 | h1
  · exact Or.inl (by rw [← he, h1])
  · exact Or.inr (he ▸ List.mem_map_of_mem Prod.fst h1.1)

theorem nodup_keys_dictInsert {d : List (κ × ν)} (k : κ) (v : ν)
    (hnd : (d.map Prod.fst).Nodup) : ((dictInsert d k v).map Prod.fst).Nodup := by
  unfold dictInsert
  by_cases hc : d.any (fun p => decide (p.1 = k))
  · rw [if_pos hc]
    have he : (d.map (fun p => if p.1 = k then (k, v) else p)).map Prod.fst
        = d.map Prod.fst := by
      rw [List.map_map]
      apply List.map_congr_left
      intro p _
      by_cases hpk : p.1 = k
      · simp [hpk]
      · simp [hpk]
    rw [he]
    exact hnd
  · rw [if_neg hc, List.map_append]
    simp only [List.map_cons, List.map_nil]
    rw [List.nodup_append]
    refine ⟨hnd, List.nodup_singleton k, ?_⟩
    intro a ha
    simp only [List.mem_singleton]
    intro he
    subst he
    simp only [List.any_eq_true, decide_eq_true_eq, not_exists, not_and] at hc
    rcases List.mem_map.mp ha with ⟨q, hq, hqe⟩
    exact hc q hq hqe

theorem dictGet_dictInsert_self (d : List (κ × ν)) (k : κ) (v : ν) :
    dictGet (dictInsert d k v) k = some v := by
  unfold dictInsert
  by_cases hc : d.any (fun p => decide (p.1 = k))
  · rw [if_pos hc]
    simp only [List.any_eq_true, decide_eq_true_eq] at hc
    induction d with
    | nil => simp at hc
    | cons p d ih =>
      rw [List.map_cons]
      by_cases hpk : p.1 = k
      · rw [if_pos hpk, dictGet_cons, if_pos rfl]
      · rw [if_neg hpk, dictGet_cons, if_neg hpk]
        apply ih
        rcases hc with ⟨q, hq, hqk⟩
        rcases List.mem_cons.mp hq with h1 | h1
        · exact absurd (h1 ▸ hqk) hpk
        · exact ⟨q, h1, hqk⟩
  · rw [if_neg hc]
    induction d with
    | nil => rw [List.nil_append, dictGet_cons, if_pos rfl]
    | cons p d ih =>
      simp only [List.any_eq_true, decide_eq_true_eq, not_exists, not_and] at hc
      rw [List.cons_append, dictGet_cons, if_neg (hc p (by simp))]
      apply ih
      simp only [List.any_eq_true, decide_eq_true_eq, not_exists, not_and]
      intro q hq
      exact hc q (List.mem_cons_of_mem p hq)

theorem dictGet_dictInsert_ne (d : List (κ × ν)) {m k : κ} (v : ν) (h : m ≠ k) :
    dictGet (dictInsert d k v) m = dictGet d m := by
  unfold dictInsert
  by_cases hc : d.any (fun p => decide (p.1 = k))
  · rw [if_pos hc]
    clear hc
    induction d with
    | nil => simp
    | cons p d ih =>
      rw [List.map_cons]
      by_cases hpk : p.1 = k
      · rw [if_pos hpk, dictGet_cons, dictGet_cons, if_neg (Ne.symm h),
          if_neg (by rw [hpk]; exact fun he => h he.symm)]
        exact ih
      · rw [if_neg hpk, dictGet_cons, dictGet_cons]
        by_cases hpm : p.1 = m
        · rw [if_pos hpm, if_pos hpm]
        · rw [if_neg hpm, if_neg hpm]
          exact ih
  · rw [if_neg hc]
    induction d with
    | nil =>
      rw [List.nil_append, dictGet_cons, if_neg (Ne.symm h)]
    | cons p d ih =>
      rw [List.cons_append, dictGet_cons, dictGet_cons]
      by_cases hpm : p.1 = m
      · rw [if_pos hpm, if_pos hpm]
      · rw [if_neg hpm, if_neg hpm]
        apply ih
        intro hc2
        apply hc
        simp only [List.any_eq_true] at hc2 ⊢
        obtain ⟨q, hq, hqk⟩ := hc2
        exact ⟨q, List.mem_cons_of_mem p hq, hqk⟩

theorem mem_dictRemove {d : List (κ × ν)} {k : κ} {p : κ × ν} :
    p ∈ dictRemove d k ↔ p ∈ d ∧ p.1 ≠ k := by
  unfold dictRemove
  rw [List.mem_filter]
  simp

theorem dictRemove_sublist (d : List (κ × ν)) (k : κ) : (dictRemove d k).Sublist d :=
  List.filter_sublist d

theorem nodup_keys_dictRemove {d : List (κ × ν)} (k : κ)
    (hnd : (d.map Prod.fst).Nodup) : ((dictRemove d k).map Prod.fst).Nodup :=
  List.Nodup.sublist (List.Sublist.map Prod.fst (dictRemove_sublist d k)) hnd

theorem length_dictRemove_lt {d : List (κ × ν)} {k : κ} {v : ν} (h : (k, v) ∈ d) :
    (dictRemove d k).length < d.length := by
  unfold dictRemove
  induction d with
  | nil => cases h
  | cons p d ih =>
    rcases List.mem_cons.mp h with h1 | h1
    · rw [← h1]
      simp only [List.filter_cons]
      rw [if_neg (by simp)]
      exact Nat.lt_succ_of_le (List.length_filter_le _ d)
    · simp only [List.filter_cons]
      by_cases hpk : p.1 = k
      · rw [if_neg (by simpa using hpk)]
        exact Nat.lt_succ_of_le (List.length_filter_le _ d)
      · rw [if_pos (by simpa using hpk)]
        simpa using ih h1

theorem exists_split_nodup {d : List (κ × ν)} {k : κ} {v : ν}
    (hnd : (d.map Prod.fst).Nodup) (h : (k, v) ∈ d) :
    ∃ l1 l2, d = l1 ++ (k, v) :: l2 ∧ (∀ p ∈ l1, p.1 ≠ k) ∧ (∀ p ∈ l2, p.1 ≠ k) := by
  obtain ⟨l1, l2, he⟩ := List.append_of_mem h
  subst he
  rw [List.map_append, List.map_cons] at hnd
  rw [List.nodup_append] at hnd
  refine ⟨l1, l2, rfl, ?_, ?_⟩
  · intro p hp he
    have h1 : k ∈ List.map Prod.fst l1 := by
      rw [← he]
      exact List.mem_map_of_mem Prod.fst hp
    have h2 : k ∈ (k, v).1 :: List.map Prod.fst l2 := by simp
    exact hnd.2.2 h1 h2
  · intro p hp he
    have h2 := hnd.2.1
    rw [List.nodup_cons] at h2
    have h1 : (k, v).1 ∈ List.map Prod.fst l2 := by
      show k ∈ _
      rw [← he]
      exact List.mem_map_of_mem Prod.fst hp
    exact h2.1 h1

theorem map_replace_id (l : List (κ × ν)) (k : κ) (v : ν)
    (h : ∀ p ∈ l, p.1 ≠ k) : l.map (fun p => if p.1 = k then (k, v) else p) = l := by
  induction l with
  | nil => rfl
  | cons p l ih =>
    rw [List.map_cons, if_neg (h p (by simp)), ih (fun q hq => h q (List.mem_cons_of_mem p hq))]

theorem dictInsert_of_split (l1 l2 : List (κ × ν)) (k : κ) (v w : ν)
    (h1 : ∀ p ∈ l1, p.1 ≠ k) (h2 : ∀ p ∈ l2, p.1 ≠ k) :
    dictInsert (l1 ++ (k, w) :: l2) k v = l1 ++ (k, v) :: l2 := by
  unfold dictInsert
  rw [if_pos (by simp)]
  rw [List.map_append, List.map_cons, if_pos rfl, map_replace_id l1 k v h1,
    map_replace_id l2 k v h2]

theorem dictInsert_of_not_mem {d : List (κ × ν)} {k : κ} (v : ν)
    (h : ∀ p ∈ d, p.1 ≠ k) : dictInsert d k v = d ++ [(k, v)] := by
  unfold dictInsert
  rw [if_neg]
  simp only [List.any_eq_true, decide_eq_true_eq, not_exists, not_and]
  intro p hp
  exact h p hp

theorem dictRemove_of_split (l1 l2 : List (κ × ν)) (k : κ) (w : ν)
    (h1 : ∀ p ∈ l1, p.1 ≠ k) (h2 : ∀ p ∈ l2, p.1 ≠ k) :
    dictRemove (l1 ++ (k, w) :: l2) k = l1 ++ l2 := by
  unfold dictRemove
  rw [List.filter_append, List.filter_cons, if_neg (by simp)]
  have e1 : List.filter (fun p => decide (¬ p.1 = k)) l1 = l1 := by
    apply List.filter_eq_self.mpr
    intro p hp
    simpa using h1 p hp
  have e2 : List.filter (fun p => decide (¬ p.1 = k)) l2 = l2 := by
    apply List.filter_eq_self.mpr
    intro p hp
    simpa using h2 p hp
  rw [e1, e2]

end DictLemmas

set_option linter.unusedSectionVars false

/-! ### minKey lemmas -/

theorem foldl_min_le_init (tl : List (Nat × FinishInfo)) :
    ∀ a : Nat, tl.foldl (fun m q => min m q.1) a ≤ a := by
  induction tl with
  | nil => intro a; exact Nat.le_refl a
  | cons q tl ih =>
    intro a
    exact Nat.le_trans (ih (min a q.1)) (Nat.min_le_left _ _)

theorem foldl_min_le_mem (tl : List (Nat × FinishInfo)) :
    ∀ (a : Nat) (q : Nat × FinishInfo), q ∈ tl → tl.foldl (fun m q => min m q.1) a ≤ q.1 := by
  induction tl with
  | nil => intro _ q hq; cases hq
  | cons p tl ih =>
    intro a q hq
    rcases List.mem_cons.mp hq with h1 | h1
    · subst h1
      exact Nat.le_trans (foldl_min_le_init tl (min a q.1)) (Nat.min_le_right _ _)
    · exact ih (min a p.1) q h1

theorem foldl_min_mem (tl : List (Nat × FinishInfo)) :
    ∀ a : Nat, tl.foldl (fun m q => min m q.1) a = a ∨
      ∃ q ∈ tl, tl.foldl (fun m q => min m q.1) a = q.1 := by
  induction tl with
  | nil => intro a; exact Or.inl rfl
  | cons p tl ih =>
    intro a
    rcases ih (min a p.1) with h | ⟨q, hq, he⟩
    · simp only [List.foldl_cons]
      by_cases hc : a ≤ p.1
      · exact Or.inl (by rw [h, Nat.min_eq_left hc])
      · exact Or.inr ⟨p, by simp, by rw [h, Nat.min_eq_right (Nat.le_of_not_le hc)]⟩
    · exact Or.inr ⟨q, List.mem_cons_of_mem p hq, by simpa using he⟩

theorem minKey_le {evs : List (Nat × FinishInfo)} {p : Nat × FinishInfo} (h : p ∈ evs) :
    minKey evs ≤ p.1 := by
  cases evs with
  | nil => cases h
  | cons e tl =>
    have hk : minKey (e :: tl) = tl.foldl (fun m q => min m q.1) e.1 := rfl
    rw [hk]
    rcases List.mem_cons.mp h with h1 | h1
    · rw [h1]
      exact foldl_min_le_init tl e.1
    · exact foldl_min_le_mem tl e.1 p h1

theorem minKey_mem {evs : List (Nat × FinishInfo)} (h : evs ≠ []) :
    ∃ info, (minKey evs, info) ∈ evs := by
  cases evs with
  | nil => exact absurd rfl h
  | cons e tl =>
    have hk : minKey (e :: tl) = tl.foldl (fun m q => min m q.1) e.1 := rfl
    rw [hk]
    rcases foldl_min_mem tl e.1 with h1 | ⟨q, hq, he⟩
    · exact ⟨e.2, by rw [h1]; simp⟩
    · exact ⟨q.2, by rw [he]; exact List.mem_cons_of_mem e (by simpa using hq)⟩

/-! ### Event-count lemmas -/

/-- Number of pending completion events for dispenser `n`. -/
def evCount (evs : List (Nat × FinishInfo)) (n : Int) : Nat :=
  (evs.filter (fun e => decide (e.2.num = n))).length

theorem evCount_nil (n : Int) : evCount [] n = 0 := rfl

theorem evCount_cons (e : Nat × FinishInfo) (evs : List (Nat × FinishInfo)) (n : Int) :
    evCount (e :: evs) n = (if e.2.num = n then 1 else 0) + evCount evs n := by
  unfold evCount
  rw [List.filter_cons]
  by_cases h : e.2.num = n
  · rw [if_pos (by simpa using h), if_pos h, List.length_cons]
    omega
  · rw [if_neg (by simpa using h), if_neg h]
    omega

theorem evCount_append (l1 l2 : List (Nat × FinishInfo)) (n : Int) :
    evCount (l1 ++ l2) n = evCount l1 n + evCount l2 n := by
  unfold evCount
  rw [List.filter_append, List.length_append]

theorem evCount_pos_of_mem {evs : List (Nat × FinishInfo)} {e : Nat × FinishInfo} {n : Int}
    (h : e ∈ evs) (hn : e.2.num = n) : 1 ≤ evCount evs n := by
  induction evs with
  | nil => cases h
  | cons p evs ih =>
    rw [evCount_cons]
    rcases List.mem_cons.mp h with h1 | h1
    · rw [if_pos (h1 ▸ hn)]
      omega
    · have := ih h1
      omega

theorem evCount_dictRemove {evs : List (Nat × FinishInfo)} {ft : Nat} {info : FinishInfo}
    (hnd : (evs.map Prod.fst).Nodup) (hmem : (ft, info) ∈ evs) (n : Int) :
    evCount (dictRemove evs ft) n = evCount evs n - (if info.num = n then 1 else 0) := by
  obtain ⟨l1, l2, he, h1, h2⟩ := exists_split_nodup hnd hmem
  subst he
  rw [dictRemove_of_split l1 l2 ft info h1 h2, evCount_append, evCount_append]
  simp only [evCount_cons]
  by_cases h : info.num = n
  · simp only [h, if_true]
    omega
  · simp only [h, if_false]
    omega

theorem evCount_dictInsert_le {evs : List (Nat × FinishInfo)} {k : Nat}
    (hnd : (evs.map Prod.fst).Nodup) (info : FinishInfo) (n : Int) :
    evCount (dictInsert evs k info) n ≤ evCount evs n + (if info.num = n then 1 else 0) := by
  by_cases hmem : ∃ old, (k, old) ∈ evs
  · obtain ⟨old, hold⟩ := hmem
    obtain ⟨l1, l2, he, h1, h2⟩ := exists_split_nodup hnd hold
    subst he
    rw [dictInsert_of_split l1 l2 k info old h1 h2]
    rw [evCount_append, evCount_append]
    simp only [evCount_cons]
    by_cases ho : old.num = n <;> by_cases hi : info.num = n <;>
      simp only [ho, hi, if_true, if_false] <;> omega
  · have hno : ∀ p ∈ evs, p.1 ≠ k := by
      intro p hp he
      exact hmem ⟨p.2, by rw [← he]; exact hp⟩
    rw [dictInsert_of_not_mem info hno, evCount_append]
    simp only [evCount_cons, evCount_nil]
    by_cases hi : info.num = n <;> simp only [hi, if_true, if_false] <;> omega

/-! ### Selection-policy lemmas -/

theorem pickMin_spec (xs : List (Int × Automate)) :
    ∀ x : Int × Automate,
      pickMin x xs ∈ x :: xs ∧
      (∀ q ∈ x :: xs, (pickMin x xs).2.queue ≤ q.2.queue) ∧
      (x :: xs).find? (fun q => decide (q.2.queue ≤ (pickMin x xs).2.queue))
        = some (pickMin x xs) := by
  induction xs with
  | nil =>
    intro x
    refine ⟨by simp [pickMin], ?_, ?_⟩
    · intro q hq
      rcases List.mem_cons.mp hq with h1 | h1
      · rw [h1]
        exact Int.le_refl _
      · cases h1
    · rw [List.find?_cons_of_pos _ (by simp [pickMin])]
      rfl
  | cons p tl ih =>
    intro x
    have hstep : pickMin x (p :: tl) = pickMin (if p.2.queue < x.2.queue then p else x) tl := by
      unfold pickMin
      rfl
    set y := if p.2.queue < x.2.queue then p else x with hy
    obtain ⟨ihmem, ihmin, ihfind⟩ := ih y
    have hymem : y ∈ [x, p] := by
      rw [hy]
      by_cases hc : p.2.queue < x.2.queue
      · rw [if_pos hc]; simp
      · rw [if_neg hc]; simp
    have hyle : y.2.queue ≤ x.2.queue ∧ y.2.queue ≤ p.2.queue := by
      rw [hy]
      by_cases hc : p.2.queue < x.2.queue
      · rw [if_pos hc]
        exact ⟨Int.le_of_lt hc, Int.le_refl _⟩
      · rw [if_neg hc]
        exact ⟨Int.le_refl _, Int.not_lt.mp hc⟩
    have hrley : (pickMin y tl).2.queue ≤ y.2.queue := ihmin y (by simp)
    refine ⟨?_, ?_, ?_⟩
    · rw [hstep]
      rcases List.mem_cons.mp ihmem with h1 | h1
      · have hm2 : pickMin y tl ∈ [x, p] := by rw [h1]; exact hymem
        rcases List.mem_cons.mp hm2 with h2 | h2
        · rw [h2]; simp
        · simp only [List.mem_singleton] at h2
          rw [h2]; simp
      · exact List.mem_cons_of_mem x (List.mem_cons_of_mem p h1)
    · intro q hq
      rw [hstep]
      rcases List.mem_cons.mp hq with h1 | h1
      · rw [h1]
        exact Int.le_trans hrley hyle.1
      · rcases List.mem_cons.mp h1 with h2 | h2
        · rw [h2]
          exact Int.le_trans hrley hyle.2
        · exact ihmin q (List.mem_cons_of_mem y h2)
    · rw [hstep]
      by_cases hc : p.2.queue < x.2.queue
      · have hy2 : y = p := by rw [hy, if_pos hc]
        rw [hy2] at ihfind hrley ⊢
        by_cases hx : x.2.queue ≤ (pickMin p tl).2.queue
        · exfalso
          omega
        · rw [List.find?_cons_of_neg _ (by simpa using hx)]
          exact ihfind
      · have hy2 : y = x := by rw [hy, if_neg hc]
        rw [hy2] at ihfind hrley ⊢
        by_cases hx : x.2.queue ≤ (pickMin x tl).2.queue
        · have hxeq : pickMin x tl = x := by
            rw [List.find?_cons_of_pos _ (by simpa using hx)] at ihfind
            exact (Option.some.inj ihfind).symm
          rw [List.find?_cons_of_pos _ (by simpa using hx), hxeq]
        · rw [List.find?_cons_of_neg _ (by simpa using hx)]
          rw [List.find?_cons_of_neg _ (by simpa using hx)] at ihfind
          have hp : ¬ p.2.queue ≤ (pickMin x tl).2.queue := by
            have hxp : x.2.queue ≤ p.2.queue := Int.not_lt.mp hc
            omega
          rw [List.find?_cons_of_neg _ (by simpa using hp)]
          exact ihfind

theorem automate_num_nil : automate_num [] = 0 := rfl

theorem automate_num_of_filter_nil {suitable : List (Int × Automate)}
    (hf : suitable.filter (fun p => decide (p.2.queue < p.2.max_queue)) = []) :
    automate_num suitable = 0 := by
  cases suitable with
  | nil => rfl
  | cons a as =>
    have ha : automate_num (a :: as) =
        match (a :: as).filter (fun p => decide (p.2.queue < p.2.max_queue)) with
        | [] => 0
        | x :: xs => (pickMin x xs).1 := rfl
    rw [ha, hf]

theorem automate_num_of_filter_cons {suitable x xs}
    (hf : suitable.filter (fun p => decide (p.2.queue < p.2.max_queue)) = x :: xs) :
    automate_num suitable = (pickMin x xs).1 := by
  cases suitable with
  | nil => simp at hf
  | cons a as =>
    have ha : automate_num (a :: as) =
        match (a :: as).filter (fun p => decide (p.2.queue < p.2.max_queue)) with
        | [] => 0
        | x :: xs => (pickMin x xs).1 := rfl
    rw [ha, hf]

theorem automate_num_eq_zero_iff {suitable : List (Int × Automate)}
    (h0 : ∀ p ∈ suitable, p.1 ≠ 0) :
    automate_num suitable = 0 ↔
      suitable.filter (fun p => decide (p.2.queue < p.2.max_queue)) = [] := by
  cases hf : suitable.filter (fun p => decide (p.2.queue < p.2.max_queue)) with
  | nil => simp [automate_num_of_filter_nil hf]
  | cons x xs =>
    rw [automate_num_of_filter_cons hf]
    constructor
    · intro h
      exfalso
      have hmem : pickMin x xs ∈ x :: xs := (pickMin_spec xs x).1
      have hmem2 : pickMin x xs ∈
          suitable.filter (fun p => decide (p.2.queue < p.2.max_queue)) := by
        rw [hf]; exact hmem
      exact h0 (pickMin x xs) (List.mem_of_mem_filter hmem2) h
    · intro h
      cases h

/-- The selected automate, when nonzero, really is an entry of the available
sub-dictionary, has spare capacity, and has the minimal queue there. -/
theorem automate_num_chosen_spec {suitable : List (Int × Automate)}
    (hne : automate_num suitable ≠ 0) :
    ∃ b : Automate, (automate_num suitable, b) ∈ suitable ∧ b.queue < b.max_queue ∧
      (∀ q ∈ suitable.filter (fun p => decide (p.2.queue < p.2.max_queue)),
        b.queue ≤ q.2.queue) := by
  cases hf : suitable.filter (fun p => decide (p.2.queue < p.2.max_queue)) with
  | nil => exact absurd (automate_num_of_filter_nil hf) hne
  | cons x xs =>
    obtain ⟨hmem, hmin, _⟩ := pickMin_spec xs x
    have hmem2 : pickMin x xs ∈
        suitable.filter (fun p => decide (p.2.queue < p.2.max_queue)) := by
      rw [hf]; exact hmem
    refine ⟨(pickMin x xs).2, ?_, ?_, ?_⟩
    · rw [automate_num_of_filter_cons hf]
      exact List.mem_of_mem_filter hmem2
    · have := List.of_mem_filter hmem2
      simpa using this
    · intro q hq
      exact hmin q hq

theorem mem_suitable {request : Request} {automates : List (Int × Automate)}
    {p : Int × Automate} (h : p ∈ suitable_automates request automates) :
    p ∈ automates ∧ request.brand ∈ p.2.brands := by
  unfold suitable_automates at h
  exact ⟨List.mem_of_mem_filter h, by simpa using List.of_mem_filter h⟩

theorem suitable_eq_nil {request : Request} {automates : List (Int × Automate)}
    (h : ∀ p ∈ automates, request.brand ∉ p.2.brands) :
    suitable_automates request automates = [] := by
  unfold suitable_automates
  rw [List.filter_eq_nil]
  intro p hp
  simpa using h p hp

/-! ### Engine invariants -/

/-- All queue lengths within bounds (the spec invariant
`0 ≤ queueLength ≤ maxQueue`). -/
def QueueBounds (auts : List (Int × Automate)) : Prop :=
  ∀ p ∈ auts, 0 ≤ p.2.queue ∧ p.2.queue ≤ p.2.max_queue

/-- The engine's well-formedness invariant: both dictionaries have distinct
keys, all queues are within bounds, every pending event references an
existing automate, and no automate has more pending completion events than
queued customers. -/
def WF (s : SimState) : Prop :=
  (s.automates.map Prod.fst).Nodup ∧
  (s.finish_events.map Prod.fst).Nodup ∧
  QueueBounds s.automates ∧
  (∀ e ∈ s.finish_events, e.2.num ∈ s.automates.map Prod.fst) ∧
  (∀ p ∈ s.automates, (evCount s.finish_events p.1 : Int) ≤ p.2.queue)

theorem applyFinish_ok {s : SimState} {entry : LogEntry} {s1 : SimState}
    (h : applyFinish s = .ok (entry, s1)) :
    ∃ info a,
      dictGet s.finish_events (minKey s.finish_events) = some info ∧
      dictGet s.automates info.num = some a ∧
      entry = LogEntry.finish (minKey s.finish_events) info
        (dictInsert s.automates info.num
          { a with queue := a.queue - 1, previous_time := minKey s.finish_events }) ∧
      s1 = { s with
        automates := dictInsert s.automates info.num
          { a with queue := a.queue - 1, previous_time := minKey s.finish_events },
        finish_events := dictRemove s.finish_events (minKey s.finish_events) } := by
  simp only [applyFinish] at h
  split at h
  · cases h
  next info hg =>
    split at h
    · cases h
    next a ha =>
      simp only [Except.ok.injEq, Prod.mk.injEq] at h
      exact ⟨info, a, hg, ha, h.1.symm, h.2.symm⟩

theorem applyFinish_length {s : SimState} {entry : LogEntry} {s1 : SimState}
    (h : applyFinish s = .ok (entry, s1)) :
    s1.finish_events.length < s.finish_events.length := by
  obtain ⟨info, a, hg, _, _, hs1⟩ := applyFinish_ok h
  rw [hs1]
  exact length_dictRemove_lt (dictGet_mem hg)

theorem applyFinish_WF {s : SimState} {entry : LogEntry} {s1 : SimState}
    (hWF : WF s) (h : applyFinish s = .ok (entry, s1)) : WF s1 := by
  obtain ⟨nd_a, nd_e, qb, enum, cnt⟩ := hWF
  obtain ⟨info, a, hg, ha, hentry, hs1⟩ := applyFinish_ok h
  have hev_mem : (minKey s.finish_events, info) ∈ s.finish_events := dictGet_mem hg
  have ha_mem : (info.num, a) ∈ s.automates := dictGet_mem ha
  have hcnt_pos : 1 ≤ evCount s.finish_events info.num :=
    evCount_pos_of_mem hev_mem rfl
  have hcnt_a : (evCount s.finish_events info.num : Int) ≤ a.queue := cnt (info.num, a) ha_mem
  have hq_a := qb (info.num, a) ha_mem
  rw [hs1]
  refine ⟨?_, ?_, ?_, ?_, ?_⟩
  · exact nodup_keys_dictInsert _ _ nd_a
  · exact nodup_keys_dictRemove _ nd_e
  · intro p hp
    rcases mem_dictInsert hp with h1 | ⟨h1, _⟩
    · rw [h1]
      show (0 : Int) ≤ a.queue - 1 ∧ a.queue - 1 ≤ a.max_queue
      have hq : 0 ≤ a.queue ∧ a.queue ≤ a.max_queue := hq_a
      omega
    · exact qb p h1
  · intro e he
    have := enum e (mem_dictRemove.mp he).1
    exact keys_dictInsert_superset _ _ this
  · intro p hp
    have hrem : ∀ n, evCount (dictRemove s.finish_events (minKey s.finish_events)) n
        = evCount s.finish_events n - (if info.num = n then 1 else 0) :=
      evCount_dictRemove nd_e hev_mem
    rcases mem_dictInsert hp with h1 | ⟨h1, h2⟩
    · rw [h1]
      show (evCount (dictRemove s.finish_events (minKey s.finish_events)) info.num : Int)
          ≤ a.queue - 1
      rw [hrem info.num, if_pos rfl]
      omega
    · have := cnt p h1
      rw [hrem p.1, if_neg (fun he => h2 he.symm)]
      omega

theorem finishTimes_nil : finishTimes [] = [] := rfl

theorem finishTimes_cons_finish (t : Nat) (i : FinishInfo) (sn : List (Int × Automate))
    (l : List LogEntry) : finishTimes (LogEntry.finish t i sn :: l) = t :: finishTimes l := rfl

theorem finishTimes_cons_arrive (t : Nat) (pnd : List Nat) (b : Bool)
    (sn : List (Int × Automate)) (l : List LogEntry) :
    finishTimes (LogEntry.arrive t pnd b sn :: l) = finishTimes l := rfl

theorem mem_finishTimes {x : Nat} {l : List LogEntry} (h : x ∈ finishTimes l) :
    ∃ info snap, LogEntry.finish x info snap ∈ l := by
  unfold finishTimes at h
  rcases List.mem_filterMap.mp h with ⟨e, he, hf⟩
  cases e with
  | finish t i sn =>
    simp only [Option.some.injEq] at hf
    exact ⟨i, sn, hf ▸ he⟩
  | arrive _ _ _ _ => cases hf

theorem drainStepsUpto_spec :
    ∀ (fuel t : Nat) (s : SimState) (l : List LogEntry) (s' : SimState),
      drainStepsUpto fuel t s = .ok (l, s') →
      (∀ e ∈ s'.finish_events, e ∈ s.finish_events) ∧
      (∀ entry ∈ l, ∃ ft info snap,
        entry = LogEntry.finish ft info snap ∧ (ft, info) ∈ s.finish_events ∧ ft ≤ t ∧
        ∃ b, dictGet snap info.num = some b ∧ b.previous_time = ft) ∧
      List.Sorted (· ≤ ·) (finishTimes l) ∧
      (s.finish_events.length ≤ fuel → ∀ e ∈ s'.finish_events, t < e.1) ∧
      (WF s → WF s' ∧ ∀ entry ∈ l, QueueBounds (snapshotOf entry)) := by
  intro fuel
  induction fuel with
  | zero =>
    intro t s l s' h
    simp only [drainStepsUpto, Except.ok.injEq, Prod.mk.injEq] at h
    obtain ⟨hl, hs⟩ := h
    subst hl
    subst hs
    refine ⟨fun e he => he, by simp, List.sorted_nil, ?_, fun hWF => ⟨hWF, by simp⟩⟩
    intro hlen e he
    rw [List.eq_nil_of_length_eq_zero (Nat.le_zero.mp hlen)] at he
    cases he
  | succ fuel ih =>
    intro t s l s' h
    simp only [drainStepsUpto] at h
    by_cases hne : s.finish_events = []
    · rw [if_pos hne] at h
      simp only [Except.ok.injEq, Prod.mk.injEq] at h
      obtain ⟨hl, hs⟩ := h
      subst hl
      subst hs
      refine ⟨fun e he => he, by simp, List.sorted_nil, ?_, fun hWF => ⟨hWF, by simp⟩⟩
      intro _ e he
      rw [hne] at he
      cases he
    · rw [if_neg hne] at h
      by_cases hmin : minKey s.finish_events ≤ t
      · rw [if_pos hmin] at h
        split at h
        · cases h
        next entry s1 happ =>
          split at h
          · cases h
          next l0 s2 hrec =>
            simp only [Except.ok.injEq, Prod.mk.injEq] at h
            obtain ⟨hl, hs⟩ := h
            subst hl
            subst hs
            obtain ⟨info, a, hg, ha, hentry, hs1⟩ := applyFinish_ok happ
            have hev_mem : (minKey s.finish_events, info) ∈ s.finish_events :=
              dictGet_mem hg
            have hsub1 : ∀ e ∈ s1.finish_events, e ∈ s.finish_events := by
              intro e he
              rw [hs1] at he
              exact (mem_dictRemove.mp he).1
            obtain ⟨ihsub, ihlog, ihsort, ihabove, ihWF⟩ := ih t s1 l0 s2 hrec
            refine ⟨?_, ?_, ?_, ?_, ?_⟩
            · intro e he
              exact hsub1 e (ihsub e he)
            · intro e he
              rcases List.mem_cons.mp he with h1 | h1
              · subst h1
                rw [hentry]
                refine ⟨minKey s.finish_events, info, _, rfl, hev_mem, hmin, ?_⟩
                exact ⟨_, dictGet_dictInsert_self _ _ _, rfl⟩
              · obtain ⟨ft, info2, snap, he2, hmem2, hft2, hb2⟩ := ihlog e h1
                exact ⟨ft, info2, snap, he2, hsub1 _ hmem2, hft2, hb2⟩
            · rw [hentry, finishTimes_cons_finish]
              rw [List.sorted_cons]
              refine ⟨?_, ihsort⟩
              intro x hx
              obtain ⟨infox, snapx, hex⟩ := mem_finishTimes hx
              obtain ⟨ft, infox2, snapx2, he2, hmem2, _, _⟩ := ihlog _ hex
              have hfx : ft = x := by
                injection he2 with h1 _ _
                exact h1.symm
              subst hfx
              exact minKey_le (hsub1 _ hmem2)
            · intro hlen
              have hlt := applyFinish_length happ
              exact ihabove (by omega)
            · intro hWF
              have hWF1 := applyFinish_WF hWF happ
              obtain ⟨hWF2, hsnap⟩ := ihWF hWF1
              refine ⟨hWF2, ?_⟩
              intro e he
              rcases List.mem_cons.mp he with h1 | h1
              · subst h1
                rw [hentry]
                show QueueBounds (dictInsert s.automates info.num _)
                have hsa : s1.automates = dictInsert s.automates info.num
                    { a with
                        queue := a.queue - 1,
                        previous_time := minKey s.finish_events } := by rw [hs1]
                rw [← hsa]
                exact hWF1.2.2.1
              · exact hsnap e h1
      · rw [if_neg hmin] at h
        simp only [Except.ok.injEq, Prod.mk.injEq] at h
        obtain ⟨hl, hs⟩ := h
        subst hl
        subst hs
        refine ⟨fun e he => he, by simp, List.sorted_nil, ?_, fun hWF => ⟨hWF, by simp⟩⟩
        intro _ e he
        exact Nat.lt_of_lt_of_le (Nat.lt_of_not_le hmin) (minKey_le he)

theorem drainStepsAll_spec :
    ∀ (fuel : Nat) (s : SimState) (l : List LogEntry) (s' : SimState),
      drainStepsAll fuel s = .ok (l, s') →
      (∀ e ∈ s'.finish_events, e ∈ s.finish_events) ∧
      (∀ entry ∈ l, ∃ ft info snap,
        entry = LogEntry.finish ft info snap ∧ (ft, info) ∈ s.finish_events ∧
        ∃ b, dictGet snap info.num = some b ∧ b.previous_time = ft) ∧
      List.Sorted (· ≤ ·) (finishTimes l) ∧
      (s.finish_events.length ≤ fuel → s'.finish_events = []) ∧
      (WF s → WF s' ∧ ∀ entry ∈ l, QueueBounds (snapshotOf entry)) := by
  intro fuel
  induction fuel with
  | zero =>
    intro s l s' h
    simp only [drainStepsAll, Except.ok.injEq, Prod.mk.injEq] at h
    obtain ⟨hl, hs⟩ := h
    subst hl
    subst hs
    refine ⟨fun e he => he, by simp, List.sorted_nil, ?_, fun hWF => ⟨hWF, by simp⟩⟩
    intro hlen
    exact List.eq_nil_of_length_eq_zero (Nat.le_zero.mp hlen)
  | succ fuel ih =>
    intro s l s' h
    simp only [drainStepsAll] at h
    by_cases hne : s.finish_events = []
    · rw [if_pos hne] at h
      simp only [Except.ok.injEq, Prod.mk.injEq] at h
      obtain ⟨hl, hs⟩ := h
      subst hl
      subst hs
      exact ⟨fun e he => he, by simp, List.sorted_nil, fun _ => hne, fun hWF => ⟨hWF, by simp⟩⟩
    · rw [if_neg hne] at h
      split at h
      · cases h
      next entry s1 happ =>
        split at h
        · cases h
        next l0 s2 hrec =>
          simp only [Except.ok.injEq, Prod.mk.injEq] at h
          obtain ⟨hl, hs⟩ := h
          subst hl
          subst hs
          obtain ⟨info, a, hg, ha, hentry, hs1⟩ := applyFinish_ok happ
          have hev_mem : (minKey s.finish_events, info) ∈ s.finish_events :=
            dictGet_mem hg
          have hsub1 : ∀ e ∈ s1.finish_events, e ∈ s.finish_events := by
            intro e he
            rw [hs1] at he
            exact (mem_dictRemove.mp he).1
          obtain ⟨ihsub, ihlog, ihsort, ihempty, ihWF⟩ := ih s1 l0 s2 hrec
          refine ⟨?_, ?_, ?_, ?_, ?_⟩
          · intro e he
            exact hsub1 e (ihsub e he)
          · intro e he
            rcases List.mem_cons.mp he with h1 | h1
            · subst h1
              rw [hentry]
              refine ⟨minKey s.finish_events, info, _, rfl, hev_mem, ?_⟩
              exact ⟨_, dictGet_dictInsert_self _ _ _, rfl⟩
            · obtain ⟨ft, info2, snap, he2, hmem2, hb2⟩ := ihlog e h1
              exact ⟨ft, info2, snap, he2, hsub1 _ hmem2, hb2⟩
          · rw [hentry, finishTimes_cons_finish]
            rw [List.sorted_cons]
            refine ⟨?_, ihsort⟩
            intro x hx
            obtain ⟨infox, snapx, hex⟩ := mem_finishTimes hx
            obtain ⟨ft, infox2, snapx2, he2, hmem2, _⟩ := ihlog _ hex
            have hfx : ft = x := by
              injection he2 with h1 _ _
              exact h1.symm
            subst hfx
            exact minKey_le (hsub1 _ hmem2)
          · intro hlen
            have hlt := applyFinish_length happ
            exact ihempty (by omega)
          · intro hWF
            have hWF1 := applyFinish_WF hWF happ
            obtain ⟨hWF2, hsnap⟩ := ihWF hWF1
            refine ⟨hWF2, ?_⟩
            intro e he
            rcases List.mem_cons.mp he with h1 | h1
            · subst h1
              rw [hentry]
              show QueueBounds (dictInsert s.automates info.num _)
              have hsa : s1.automates = dictInsert s.automates info.num
                  { a with
                      queue := a.queue - 1,
                      previous_time := minKey s.finish_events } := by rw [hs1]
              rw [← hsa]
              exact hWF1.2.2.1
            · exact hsnap e h1

theorem drainUpto_ok {t : Nat} {s : SimState} {l : List LogEntry} {s' : SimState}
    (h : drainUpto t s = .ok (l, s')) :
    (∀ e ∈ s'.finish_events, e ∈ s.finish_events) ∧
    (∀ entry ∈ l, ∃ ft info snap,
      entry = LogEntry.finish ft info snap ∧ (ft, info) ∈ s.finish_events ∧ ft ≤ t ∧
      ∃ b, dictGet snap info.num = some b ∧ b.previous_time = ft) ∧
    List.Sorted (· ≤ ·) (finishTimes l) ∧
    (∀ e ∈ s'.finish_events, t < e.1) ∧
    (WF s → WF s' ∧ ∀ entry ∈ l, QueueBounds (snapshotOf entry)) := by
  have hs := drainStepsUpto_spec s.finish_events.length t s l s' h
  exact ⟨hs.1, hs.2.1, hs.2.2.1, hs.2.2.2.1 (Nat.le_refl _), hs.2.2.2.2⟩

theorem drainAll_ok {s : SimState} {l : List LogEntry} {s' : SimState}
    (h : drainAll s = .ok (l, s')) :
    (∀ e ∈ s'.finish_events, e ∈ s.finish_events) ∧
    (∀ entry ∈ l, ∃ ft info snap,
      entry = LogEntry.finish ft info snap ∧ (ft, info) ∈ s.finish_events ∧
      ∃ b, dictGet snap info.num = some b ∧ b.previous_time = ft) ∧
    List.Sorted (· ≤ ·) (finishTimes l) ∧
    s'.finish_events = [] ∧
    (WF s → WF s' ∧ ∀ entry ∈ l, QueueBounds (snapshotOf entry)) := by
  have hs := drainStepsAll_spec s.finish_events.length s l s' h
  exact ⟨hs.1, hs.2.1, hs.2.2.1, hs.2.2.2.1 (Nat.le_refl _), hs.2.2.2.2⟩

theorem refuel_time_pos (volume variation : Int) : 1 ≤ refuel_time volume variation :=
  le_max_left 1 _

/-- The lost-customer branch of `handleArrival`, computed exactly: the global
and per-brand lost counters are bumped, nothing else changes, and the
dispenser snapshot printed is the unchanged registry. -/
theorem handleArrival_lost {var : Nat → Int} {request : Request} {s : SimState} {c : Nat}
    (hch : automate_num (suitable_automates request s.automates) = 0)
    (hc : dictGet s.lost_by_brand request.brand = some c) :
    handleArrival var request s = .ok
      ([LogEntry.arrive request.time (s.finish_events.map Prod.fst) true s.automates],
       { s with
          lost_clients := s.lost_clients + 1,
          lost_by_brand := dictInsert s.lost_by_brand request.brand (c + 1) }) := by
  simp only [handleArrival]
  rw [if_pos hch, hc]

/-- On the lost branch, a brand outside the statistics dictionary is a
`KeyError`. -/
theorem handleArrival_lost_error {var : Nat → Int} {request : Request} {s : SimState}
    (hch : automate_num (suitable_automates request s.automates) = 0)
    (hc : dictGet s.lost_by_brand request.brand = none) :
    handleArrival var request s = .error "KeyError lost_clients_by_brand" := by
  simp only [handleArrival]
  rw [if_pos hch, hc]

/-- Inversion of the lost branch. -/
theorem handleArrival_lost_inv {var : Nat → Int} {request : Request} {s : SimState}
    {l : List LogEntry} {s' : SimState}
    (h : handleArrival var request s = .ok (l, s'))
    (hch : automate_num (suitable_automates request s.automates) = 0) :
    ∃ c, dictGet s.lost_by_brand request.brand = some c ∧
      l = [LogEntry.arrive request.time (s.finish_events.map Prod.fst) true s.automates] ∧
      s' = { s with
              lost_clients := s.lost_clients + 1,
              lost_by_brand := dictInsert s.lost_by_brand request.brand (c + 1) } := by
  cases hc : dictGet s.lost_by_brand request.brand with
  | none => rw [handleArrival_lost_error hch hc] at h; cases h
  | some c =>
    rw [handleArrival_lost hch hc] at h
    simp only [Except.ok.injEq, Prod.mk.injEq] at h
    exact ⟨c, rfl, h.1.symm, h.2.symm⟩

/-- Inversion of the accepted branch: all three dictionary lookups must have
succeeded, and the resulting state is the one computed by the source.  The
new completion event is stored at
`max(previous_time, arrival) + duration` — overwriting whatever event was
already stored at that minute. -/
theorem handleArrival_accept_inv {var : Nat → Int} {request : Request} {s : SimState}
    {l : List LogEntry} {s' : SimState}
    (h : handleArrival var request s = .ok (l, s'))
    (hch : automate_num (suitable_automates request s.automates) ≠ 0) :
    ∃ a sold price,
      dictGet s.automates (automate_num (suitable_automates request s.automates)) = some a ∧
      dictGet s.fuel_sold request.brand = some sold ∧
      dictGet petrol_prices request.brand = some price ∧
      l = [LogEntry.arrive request.time (s.finish_events.map Prod.fst) false
        (dictInsert s.automates (automate_num (suitable_automates request s.automates))
          { a with queue := a.queue + 1 })] ∧
      s' = { s with
        automates := dictInsert s.automates
          (automate_num (suitable_automates request s.automates))
          { a with queue := a.queue + 1 },
        finish_events := dictInsert s.finish_events
          (max a.previous_time request.time + (refuel_time request.volume (var s.draws)).toNat)
          { num := automate_num (suitable_automates request s.automates),
            arrival_time := request.time,
            brand := request.brand,
            volume := request.volume,
            duration := refuel_time request.volume (var s.draws) },
        fuel_sold := dictInsert s.fuel_sold request.brand (sold + request.volume),
        total_revenue := s.total_revenue + request.volume * price,
        draws := s.draws + 1 } := by
  simp only [handleArrival] at h
  rw [if_neg hch] at h
  cases ha : dictGet s.automates (automate_num (suitable_automates request s.automates)) with
  | none => rw [ha] at h; cases h
  | some a =>
    rw [ha] at h
    cases hsold : dictGet s.fuel_sold request.brand with
    | none => rw [hsold] at h; cases h
    | some sold =>
      rw [hsold] at h
      cases hprice : dictGet petrol_prices request.brand with
      | none => rw [hprice] at h; cases h
      | some price =>
        rw [hprice] at h
        simp only [Except.ok.injEq, Prod.mk.injEq] at h
        exact ⟨a, sold, price, rfl, rfl, rfl, h.1.symm, h.2.symm⟩

/-- WF preservation and the observable shape of one arrival step. -/
theorem handleArrival_ok {var : Nat → Int} {request : Request} {s : SimState}
    {l : List LogEntry} {s' : SimState}
    (h : handleArrival var request s = .ok (l, s')) (hWF : WF s) :
    WF s' ∧
    (∃ b : Bool, l = [LogEntry.arrive request.time (s.finish_events.map Prod.fst) b
      s'.automates]) ∧
    (∀ e ∈ s'.finish_events, e ∈ s.finish_events ∨ request.time < e.1) := by
  obtain ⟨nd_a, nd_e, qb, enum, cnt⟩ := hWF
  by_cases hch : automate_num (suitable_automates request s.automates) = 0
  · obtain ⟨c, hc, hl, hs⟩ := handleArrival_lost_inv h hch
    subst hl
    subst hs
    exact ⟨⟨nd_a, nd_e, qb, enum, cnt⟩, ⟨true, rfl⟩, fun e he => Or.inl he⟩
  · obtain ⟨a, sold, price, ha, hsold, hprice, hl, hs⟩ := handleArrival_accept_inv h hch
    set chosen := automate_num (suitable_automates request s.automates) with hchname
    obtain ⟨b, hbmem, hblt, _⟩ := automate_num_chosen_spec hch
    have hbmem_auts : (chosen, b) ∈ s.automates := (mem_suitable hbmem).1
    have hab : a = b := by
      have := dictGet_of_mem_nodup nd_a hbmem_auts
      rw [ha] at this
      exact Option.some.inj this
    subst hab
    have ha_mem : (chosen, a) ∈ s.automates := dictGet_mem ha
    have hq_a := qb (chosen, a) ha_mem
    have hcnt_a : (evCount s.finish_events chosen : Int) ≤ a.queue := cnt (chosen, a) ha_mem
    have hch_keys : chosen ∈ s.automates.map Prod.fst := List.mem_map_of_mem Prod.fst ha_mem
    set ft := max a.previous_time request.time + (refuel_time request.volume (var s.draws)).toNat
      with hft
    have hft_gt : request.time < ft := by
      have h1 : 1 ≤ refuel_time request.volume (var s.draws) :=
        refuel_time_pos request.volume (var s.draws)
      have h2 : 1 ≤ (refuel_time request.volume (var s.draws)).toNat := by omega
      have h3 : request.time ≤ max a.previous_time request.time :=
        Nat.le_max_right a.previous_time request.time
      omega
    set info : FinishInfo :=
      { num := chosen, arrival_time := request.time, brand := request.brand,
        volume := request.volume, duration := refuel_time request.volume (var s.draws) }
      with hinfo
    refine ⟨?_, ?_, ?_⟩
    · rw [hs]
      refine ⟨?_, ?_, ?_, ?_, ?_⟩
      · exact nodup_keys_dictInsert _ _ nd_a
      · exact nodup_keys_dictInsert _ _ nd_e
      · intro p hp
        rcases mem_dictInsert hp with h1 | ⟨h1, _⟩
        · rw [h1]
          show (0 : Int) ≤ a.queue + 1 ∧ a.queue + 1 ≤ a.max_queue
          have hblt2 : a.queue < a.max_queue := hblt
          omega
        · exact qb p h1
      · intro e he
        rcases mem_dictInsert he with h1 | ⟨h1, _⟩
        · rw [h1]
          exact keys_dictInsert_superset _ _ hch_keys
        · exact keys_dictInsert_superset _ _ (enum e h1)
      · show ∀ p ∈ dictInsert s.automates chosen { a with queue := a.queue + 1 },
            (evCount (dictInsert s.finish_events ft info) p.1 : Int) ≤ p.2.queue
        intro p hp
        have hins : ∀ n, evCount (dictInsert s.finish_events ft info) n
            ≤ evCount s.finish_events n + (if info.num = n then 1 else 0) :=
          fun n => evCount_dictInsert_le nd_e info n
        rcases mem_dictInsert hp with h1 | ⟨h1, h2⟩
        · rw [h1]
          show (evCount (dictInsert s.finish_events ft info) chosen : Int) ≤ a.queue + 1
          have := hins chosen
          rw [if_pos rfl] at this
          omega
        · have hne2 : info.num ≠ p.1 := fun he => h2 he.symm
          have := hins p.1
          rw [if_neg hne2] at this
          have hcnt_p := cnt p h1
          omega
    · refine ⟨false, ?_⟩
      rw [hl, hs]
    · intro e he
      rw [hs] at he
      rcases mem_dictInsert he with h1 | ⟨h1, _⟩
      · right
        rw [h1]
        exact hft_gt
      · exact Or.inl h1

theorem handle_ok {var : Nat → Int} {r : Request} {s : SimState}
    {l : List LogEntry} {s' : SimState}
    (h : handle var r s = .ok (l, s')) (hWF : WF s) :
    WF s' ∧ ∀ entry ∈ l, QueueBounds (snapshotOf entry) := by
  simp only [handle] at h
  split at h
  · cases h
  next l1 s1 hdrain =>
    split at h
    · cases h
    next l2 s2 harr =>
      simp only [Except.ok.injEq, Prod.mk.injEq] at h
      obtain ⟨hl, hs⟩ := h
      subst hl
      subst hs
      obtain ⟨_, _, _, _, hW⟩ := drainUpto_ok hdrain
      obtain ⟨hWF1, hsnap1⟩ := hW hWF
      obtain ⟨hWF2, ⟨b, hl2⟩, _⟩ := handleArrival_ok harr hWF1
      refine ⟨hWF2, ?_⟩
      intro e he
      rcases List.mem_append.mp he with h1 | h1
      · exact hsnap1 e h1
      · rw [hl2] at h1
        simp only [List.mem_singleton] at h1
        subst h1
        show QueueBounds s2.automates
        exact hWF2.2.2.1

theorem processRequests_WF :
    ∀ {var : Nat → Int} {reqs : List Request} {s : SimState} {l : List LogEntry} {s' : SimState},
      processRequests var reqs s = .ok (l, s') → WF s →
      WF s' ∧ ∀ entry ∈ l, QueueBounds (snapshotOf entry) := by
  intro var reqs
  induction reqs with
  | nil =>
    intro s l s' h hWF
    simp only [processRequests, Except.ok.injEq, Prod.mk.injEq] at h
    obtain ⟨hl, hs⟩ := h
    subst hl
    subst hs
    exact ⟨hWF, by simp⟩
  | cons r rs ih =>
    intro s l s' h hWF
    simp only [processRequests] at h
    split at h
    · cases h
    next l1 s1 hh =>
      split at h
      · cases h
      next l2 s2 hrec =>
        simp only [Except.ok.injEq, Prod.mk.injEq] at h
        obtain ⟨hl, hs⟩ := h
        subst hl
        subst hs
        obtain ⟨hWF1, hsnap1⟩ := handle_ok hh hWF
        obtain ⟨hWF2, hsnap2⟩ := ih hrec hWF1
        refine ⟨hWF2, ?_⟩
        intro e he
        rcases List.mem_append.mp he with h1 | h1
        · exact hsnap1 e h1
        · exact hsnap2 e h1

theorem runSim_WF {var : Nat → Int} {reqs : List Request} {s : SimState}
    {l : List LogEntry} {s' : SimState}
    (h : runSim var reqs s = .ok (l, s')) (hWF : WF s) :
    WF s' ∧ ∀ entry ∈ l, QueueBounds (snapshotOf entry) := by
  simp only [runSim] at h
  split at h
  · cases h
  next l1 s1 hproc =>
    split at h
    · cases h
    next l2 s2 hdrain =>
      simp only [Except.ok.injEq, Prod.mk.injEq] at h
      obtain ⟨hl, hs⟩ := h
      subst hl
      subst hs
      obtain ⟨hWF1, hsnap1⟩ := processRequests_WF hproc hWF
      obtain ⟨_, _, _, _, hW⟩ := drainAll_ok hdrain
      obtain ⟨hWF2, hsnap2⟩ := hW hWF1
      refine ⟨hWF2, ?_⟩
      intro e he
      rcases List.mem_append.mp he with h1 | h1
      · exact hsnap1 e h1
      · exact hsnap2 e h1

/-! ### Zero-variation event facts (service-time model) -/

/-- Under the zero-variation source every pending event completes strictly
after its customer's arrival and carries the deterministic duration
`max(1, ceil(volume / 10))`. -/
def EventsOKz (s : SimState) : Prop :=
  ∀ e ∈ s.finish_events,
    e.2.arrival_time < e.1 ∧ e.2.duration = max 1 (ceilTen e.2.volume)

theorem accept_ft_gt (a : Automate) (request : Request) (v : Int) :
    request.time < max a.previous_time request.time
      + (refuel_time request.volume v).toNat := by
  have h1 := refuel_time_pos request.volume v
  have h3 := Nat.le_max_right a.previous_time request.time
  omega

theorem handleArrival_eventsOKz {var : Nat → Int} {r : Request} {s : SimState}
    {l : List LogEntry} {s' : SimState}
    (h : handleArrival var r s = .ok (l, s')) (hz : var s.draws = 0)
    (hOK : EventsOKz s) : EventsOKz s' := by
  by_cases hch : automate_num (suitable_automates r s.automates) = 0
  · obtain ⟨c, _, _, hs⟩ := handleArrival_lost_inv h hch
    subst hs
    exact hOK
  · obtain ⟨a, sold, price, _, _, _, _, hs⟩ := handleArrival_accept_inv h hch
    subst hs
    intro e he
    rcases mem_dictInsert he with h1 | ⟨h1, _⟩
    · rw [h1]
      constructor
      · exact accept_ft_gt a r (var s.draws)
      · show refuel_time r.volume (var s.draws) = max 1 (ceilTen r.volume)
        rw [hz]
        unfold refuel_time
        rw [Int.add_zero]
    · exact hOK e h1

theorem processRequests_eventsOKz :
    ∀ {var : Nat → Int} {reqs : List Request} {s : SimState} {l : List LogEntry}
      {s' : SimState},
      processRequests var reqs s = .ok (l, s') → (∀ n, var n = 0) → EventsOKz s →
      EventsOKz s' ∧ (∀ ft info snap, LogEntry.finish ft info snap ∈ l →
        info.arrival_time < ft ∧ info.duration = max 1 (ceilTen info.volume)) := by
  intro var reqs
  induction reqs with
  | nil =>
    intro s l s' h hz hOK
    simp only [processRequests, Except.ok.injEq, Prod.mk.injEq] at h
    obtain ⟨hl, hs⟩ := h
    subst hl
    subst hs
    exact ⟨hOK, by simp⟩
  | cons r rs ih =>
    intro s l s' h hz hOK
    simp only [processRequests] at h
    split at h
    · cases h
    next l1 s1 hh =>
      split at h
      · cases h
      next l2 s2 hrec =>
        simp only [Except.ok.injEq, Prod.mk.injEq] at h
        obtain ⟨hl, hs⟩ := h
        subst hl
        subst hs
        simp only [handle] at hh
        split at hh
        · cases hh
        next la sa hdrain =>
          split at hh
          · cases hh
          next lb sb harr =>
            simp only [Except.ok.injEq, Prod.mk.injEq] at hh
            obtain ⟨hl1, hs1⟩ := hh
            subst hl1
            subst hs1
            obtain ⟨hsuba, hloga, _, _, _⟩ := drainUpto_ok hdrain
            have hOKa : EventsOKz sa := fun e he => hOK e (hsuba e he)
            have hOKb : EventsOKz sb := handleArrival_eventsOKz harr (hz sa.draws) hOKa
            obtain ⟨hOK2, hfin2⟩ := ih hrec hz hOKb
            refine ⟨hOK2, ?_⟩
            intro ft info snap hmem
            rcases List.mem_append.mp hmem with h1 | h1
            · rcases List.mem_append.mp h1 with h2 | h2
              · obtain ⟨ft2, info2, snap2, he2, hmem2, _, _⟩ := hloga _ h2
                have : ft2 = ft ∧ info2 = info := by
                  injection he2.symm with a1 a2 a3
                  exact ⟨a1, a2⟩
                obtain ⟨hfteq, hinfoeq⟩ := this
                rw [hfteq, hinfoeq] at hmem2
                exact hOK (ft, info) hmem2
              · exfalso
                by_cases hch : automate_num (suitable_automates r sa.automates) = 0
                · obtain ⟨c, _, hlb, _⟩ := handleArrival_lost_inv harr hch
                  rw [hlb] at h2
                  simp only [List.mem_singleton] at h2
                  cases h2
                · obtain ⟨a, sold, price, _, _, _, hlb, _⟩ := handleArrival_accept_inv harr hch
                  rw [hlb] at h2
                  simp only [List.mem_singleton] at h2
                  cases h2
            · exact hfin2 ft info snap h1

theorem runSim_eventsOKz {var : Nat → Int} {reqs : List Request} {s : SimState}
    {l : List LogEntry} {s' : SimState}
    (h : runSim var reqs s = .ok (l, s')) (hz : ∀ n, var n = 0) (hOK : EventsOKz s) :
    ∀ ft info snap, LogEntry.finish ft info snap ∈ l →
      info.arrival_time < ft ∧ info.duration = max 1 (ceilTen info.volume) := by
  simp only [runSim] at h
  split at h
  · cases h
  next l1 s1 hproc =>
    split at h
    · cases h
    next l2 s2 hdrain =>
      simp only [Except.ok.injEq, Prod.mk.injEq] at h
      obtain ⟨hl, hs⟩ := h
      subst hl
      subst hs
      obtain ⟨hOK1, hfin1⟩ := processRequests_eventsOKz hproc hz hOK
      intro ft info snap hmem
      rcases List.mem_append.mp hmem with h1 | h1
      · exact hfin1 ft info snap h1
      · obtain ⟨_, hlog, _, _, _⟩ := drainAll_ok hdrain
        obtain ⟨ft2, info2, snap2, he2, hmem2, _⟩ := hlog _ h1
        have hp : ft2 = ft ∧ info2 = info := by
          injection he2.symm with a1 a2 a3
          exact ⟨a1, a2⟩
        obtain ⟨hfteq, hinfoeq⟩ := hp
        rw [hfteq, hinfoeq] at hmem2
        exact hOK1 (ft, info) hmem2

theorem finishTimes_append (l1 l2 : List LogEntry) :
    finishTimes (l1 ++ l2) = finishTimes l1 ++ finishTimes l2 := by
  unfold finishTimes
  rw [List.filterMap_append]

theorem processRequests_ordering :
    ∀ {var : Nat → Int} {reqs : List Request} {t0 : Nat} {s : SimState}
      {l : List LogEntry} {s' : SimState},
      processRequests var reqs s = .ok (l, s') →
      List.Pairwise (fun a b => a.time ≤ b.time) reqs →
      (∀ r ∈ reqs, t0 ≤ r.time) →
      (∀ e ∈ s.finish_events, t0 < e.1) →
      ∃ t1, t0 ≤ t1 ∧
        (∀ e ∈ s'.finish_events, t1 < e.1) ∧
        (∀ x ∈ finishTimes l, t0 < x ∧ x ≤ t1) ∧
        List.Sorted (· ≤ ·) (finishTimes l) ∧
        (∀ T pnd bl snap, LogEntry.arrive T pnd bl snap ∈ l → ∀ q ∈ pnd, T < q) := by
  intro var reqs
  induction reqs with
  | nil =>
    intro t0 s l s' h _ _ hA
    simp only [processRequests, Except.ok.injEq, Prod.mk.injEq] at h
    obtain ⟨hl, hs⟩ := h
    subst hl
    subst hs
    exact ⟨t0, Nat.le_refl t0, hA, by simp [finishTimes_nil], List.sorted_nil, by simp⟩
  | cons r rs ih =>
    intro t0 s l s' h hp ht0 hA
    simp only [processRequests] at h
    split at h
    · cases h
    next l1 s1 hh =>
      split at h
      · cases h
      next l2 s2 hrec =>
        simp only [Except.ok.injEq, Prod.mk.injEq] at h
        obtain ⟨hl, hs⟩ := h
        subst hl
        subst hs
        simp only [handle] at hh
        split at hh
        · cases hh
        next la sa hdrain =>
          split at hh
          · cases hh
          next lb sb harr =>
            simp only [Except.ok.injEq, Prod.mk.injEq] at hh
            obtain ⟨hl1, hs1⟩ := hh
            subst hl1
            subst hs1
            obtain ⟨hsuba, hloga, hsorta, habovea, _⟩ := drainUpto_ok hdrain
            have hbfacts :
                (∃ bl : Bool, lb = [LogEntry.arrive r.time
                  (sa.finish_events.map Prod.fst) bl sb.automates]) ∧
                (∀ e ∈ sb.finish_events, e ∈ sa.finish_events ∨ r.time < e.1) := by
              by_cases hch : automate_num (suitable_automates r sa.automates) = 0
              · obtain ⟨c, _, hlb, hsb⟩ := handleArrival_lost_inv harr hch
                subst hsb
                exact ⟨⟨true, hlb⟩, fun e he => Or.inl he⟩
              · obtain ⟨a, sold, price, _, _, _, hlb, hsb⟩ :=
                  handleArrival_accept_inv harr hch
                subst hsb
                refine ⟨⟨false, hlb⟩, ?_⟩
                intro e he
                rcases mem_dictInsert he with h1 | ⟨h1, _⟩
                · right
                  rw [h1]
                  exact accept_ft_gt a r (var sa.draws)
                · exact Or.inl h1
            obtain ⟨⟨bl, hlb⟩, hbev⟩ := hbfacts
            have hpair := List.pairwise_cons.mp hp
            have hAb : ∀ e ∈ sb.finish_events, r.time < e.1 := by
              intro e he
              rcases hbev e he with h1 | h1
              · exact habovea e h1
              · exact h1
            obtain ⟨t1, ht1ge, ht1ev, ht1fin, ht1sort, ht1arr⟩ :=
              ih hrec hpair.2 hpair.1 hAb
            have ht0r : t0 ≤ r.time := ht0 r (by simp)
            have hflb : finishTimes lb = [] := by rw [hlb]; rfl
            have hla_bound : ∀ x ∈ finishTimes la, t0 < x ∧ x ≤ r.time := by
              intro x hx
              obtain ⟨infox, snapx, hex⟩ := mem_finishTimes hx
              obtain ⟨ft, info2, snap2, he2, hmem2, hft_le, _⟩ := hloga _ hex
              have hfx : ft = x := by
                injection he2 with a1 _ _
                exact a1.symm
              subst hfx
              exact ⟨hA _ hmem2, hft_le⟩
            refine ⟨t1, Nat.le_trans ht0r ht1ge, ht1ev, ?_, ?_, ?_⟩
            · intro x hx
              rw [finishTimes_append, finishTimes_append, hflb, List.append_nil] at hx
              rcases List.mem_append.mp hx with h1 | h1
              · obtain ⟨hgt, hle⟩ := hla_bound x h1
                exact ⟨hgt, Nat.le_trans hle ht1ge⟩
              · obtain ⟨hgt, hle⟩ := ht1fin x h1
                exact ⟨Nat.lt_of_le_of_lt ht0r hgt, hle⟩
            · rw [finishTimes_append, finishTimes_append, hflb, List.append_nil]
              show List.Pairwise (· ≤ ·) (finishTimes la ++ finishTimes l2)
              rw [List.pairwise_append]
              refine ⟨hsorta, ht1sort, ?_⟩
              intro x hx y hy
              have h1 := (hla_bound x hx).2
              have h2 := (ht1fin y hy).1
              omega
            · intro T pnd bl2 snap hmem q hq
              rcases List.mem_append.mp hmem with h1 | h1
              · rcases List.mem_append.mp h1 with h2 | h2
                · obtain ⟨ft, info2, snap2, he2, _, _, _⟩ := hloga _ h2
                  simp at he2
                · rw [hlb] at h2
                  simp only [List.mem_singleton] at h2
                  have hT : T = r.time ∧ pnd = sa.finish_events.map Prod.fst := by
                    injection h2 with a1 a2 _ _
                    exact ⟨a1, a2⟩
                  obtain ⟨hT1, hT2⟩ := hT
                  subst hT1
                  rw [hT2] at hq
                  rcases List.mem_map.mp hq with ⟨e, he, heq⟩
                  rw [← heq]
                  exact habovea e he
              · exact ht1arr T pnd bl2 snap h1 q hq

theorem runSim_ordering {var : Nat → Int} {reqs : List Request} {s : SimState}
    {l : List LogEntry} {s' : SimState}
    (h : runSim var reqs s = .ok (l, s'))
    (hp : List.Pairwise (fun a b => a.time ≤ b.time) reqs)
    (hev : s.finish_events = []) :
    List.Sorted (· ≤ ·) (finishTimes l) ∧
    (∀ T pnd bl snap, LogEntry.arrive T pnd bl snap ∈ l → ∀ q ∈ pnd, T < q) ∧
    s'.finish_events = [] := by
  simp only [runSim] at h
  split at h
  · cases h
  next l1 s1 hproc =>
    split at h
    · cases h
    next l2 s2 hdrain =>
      simp only [Except.ok.injEq, Prod.mk.injEq] at h
      obtain ⟨hl, hs⟩ := h
      subst hl
      subst hs
      have hA : ∀ e ∈ s.finish_events, 0 < e.1 := by
        rw [hev]
        intro e he
        cases he
      obtain ⟨t1, _, ht1ev, ht1fin, ht1sort, ht1arr⟩ :=
        processRequests_ordering hproc hp (fun r _ => Nat.zero_le r.time) hA
      obtain ⟨_, hlog2, hsort2, hempty2, _⟩ := drainAll_ok hdrain
      refine ⟨?_, ?_, hempty2⟩
      · rw [finishTimes_append]
        show List.Pairwise (· ≤ ·) (finishTimes l1 ++ finishTimes l2)
        rw [List.pairwise_append]
        refine ⟨ht1sort, hsort2, ?_⟩
        intro x hx y hy
        have h1 := (ht1fin x hx).2
        obtain ⟨infoy, snapy, hey⟩ := mem_finishTimes hy
        obtain ⟨ft, info2, snap2, he2, hmem2, _⟩ := hlog2 _ hey
        have hfy : ft = y := by
          injection he2 with a1 _ _
          exact a1.symm
        subst hfy
        have h2 := ht1ev _ hmem2
        omega
      · intro T pnd bl snap hmem q hq
        rcases List.mem_append.mp hmem with h1 | h1
        · exact ht1arr T pnd bl snap h1 q hq
        · obtain ⟨ft, info2, snap2, he2, _, _⟩ := hlog2 _ h1
          simp at he2

/-! ### Initial state and run-level helper lemmas -/

theorem initState_WF {auts : List (Int × Automate)}
    (hnd : (auts.map Prod.fst).Nodup)
    (hinit : ∀ p ∈ auts, p.2.queue = 0 ∧ 0 ≤ p.2.max_queue) : WF (initState auts) := by
  refine ⟨hnd, List.nodup_nil, ?_, ?_, ?_⟩
  · intro p hp
    obtain ⟨h1, h2⟩ := hinit p hp
    rw [h1]
    exact ⟨Int.le_refl 0, h2⟩
  · intro e he
    cases he
  · intro p hp
    show (evCount [] p.1 : Int) ≤ p.2.queue
    rw [evCount_nil, (hinit p hp).1]
    exact Int.le_refl 0

theorem processRequests_finish_prev :
    ∀ {var : Nat → Int} {reqs : List Request} {s : SimState} {l : List LogEntry}
      {s' : SimState},
      processRequests var reqs s = .ok (l, s') →
      ∀ ft info snap, LogEntry.finish ft info snap ∈ l →
        ∃ b, dictGet snap info.num = some b ∧ b.previous_time = ft := by
  intro var reqs
  induction reqs with
  | nil =>
    intro s l s' h
    simp only [processRequests, Except.ok.injEq, Prod.mk.injEq] at h
    obtain ⟨hl, _⟩ := h
    subst hl
    intro ft info snap hmem
    cases hmem
  | cons r rs ih =>
    intro s l s' h
    simp only [processRequests] at h
    split at h
    · cases h
    next l1 s1 hh =>
      split at h
      · cases h
      next l2 s2 hrec =>
        simp only [Except.ok.injEq, Prod.mk.injEq] at h
        obtain ⟨hl, _⟩ := h
        subst hl
        simp only [handle] at hh
        split at hh
        · cases hh
        next la sa hdrain =>
          split at hh
          · cases hh
          next lb sb harr =>
            simp only [Except.ok.injEq, Prod.mk.injEq] at hh
            obtain ⟨hl1, _⟩ := hh
            subst hl1
            intro ft info snap hmem
            rcases List.mem_append.mp hmem with h1 | h1
            · rcases List.mem_append.mp h1 with h2 | h2
              · obtain ⟨_, hloga, _, _, _⟩ := drainUpto_ok hdrain
                obtain ⟨ft2, info2, snap2, he2, _, _, hb⟩ := hloga _ h2
                have hp : ft2 = ft ∧ info2 = info ∧ snap2 = snap := by
                  injection he2.symm with a1 a2 a3
                  exact ⟨a1, a2, a3⟩
                obtain ⟨e1, e2, e3⟩ := hp
                rw [e1, e2, e3] at hb
                exact hb
              · exfalso
                by_cases hch : automate_num (suitable_automates r sa.automates) = 0
                · obtain ⟨c, _, hlb, _⟩ := handleArrival_lost_inv harr hch
                  rw [hlb] at h2
                  simp only [List.mem_singleton] at h2
                  cases h2
                · obtain ⟨a, sold, price, _, _, _, hlb, _⟩ :=
                    handleArrival_accept_inv harr hch
                  rw [hlb] at h2
                  simp only [List.mem_singleton] at h2
                  cases h2
            · exact ih hrec ft info snap h1

theorem runSim_finish_prev {var : Nat → Int} {reqs : List Request} {s : SimState}
    {l : List LogEntry} {s' : SimState}
    (h : runSim var reqs s = .ok (l, s')) :
    ∀ ft info snap, LogEntry.finish ft info snap ∈ l →
      ∃ b, dictGet snap info.num = some b ∧ b.previous_time = ft := by
  simp only [runSim] at h
  split at h
  · cases h
  next l1 s1 hproc =>
    split at h
    · cases h
    next l2 s2 hdrain =>
      simp only [Except.ok.injEq, Prod.mk.injEq] at h
      obtain ⟨hl, _⟩ := h
      subst hl
      intro ft info snap hmem
      rcases List.mem_append.mp hmem with h1 | h1
      · exact processRequests_finish_prev hproc ft info snap h1
      · obtain ⟨_, hlog2, _, _, _⟩ := drainAll_ok hdrain
        obtain ⟨ft2, info2, snap2, he2, _, hb⟩ := hlog2 _ h1
        have hp : ft2 = ft ∧ info2 = info ∧ snap2 = snap := by
          injection he2.symm with a1 a2 a3
          exact ⟨a1, a2, a3⟩
        obtain ⟨e1, e2, e3⟩ := hp
        rw [e1, e2, e3] at hb
        exact hb

/-! ### Catalog-loading lemmas -/

theorem catalogFold_filter :
    ∀ (lines : List String) (acc : List (Int × Automate)),
      lines.foldl catalogStep acc
        = (lines.filter (fun l => (parseCatalogLine l).isSome)).foldl catalogStep acc := by
  intro lines
  induction lines with
  | nil => intro acc; rfl
  | cons l ls ih =>
    intro acc
    rw [List.foldl_cons, List.filter_cons]
    cases hp : parseCatalogLine l with
    | none =>
      rw [if_neg (by simp [hp])]
      have hstep : catalogStep acc l = acc := by
        unfold catalogStep
        rw [hp]
      rw [hstep]
      exact ih acc
    | some p =>
      rw [if_pos (by simp [hp]), List.foldl_cons]
      exact ih (catalogStep acc l)

theorem catalogFold_mem :
    ∀ (lines : List String) (acc : List (Int × Automate)) (p : Int × Automate),
      p ∈ lines.foldl catalogStep acc →
      p ∈ acc ∨ ∃ l ∈ lines, parseCatalogLine l = some p := by
  intro lines
  induction lines with
  | nil =>
    intro acc p hp
    exact Or.inl hp
  | cons l ls ih =>
    intro acc p hp
    rw [List.foldl_cons] at hp
    rcases ih (catalogStep acc l) p hp with h1 | ⟨l2, hl2, hp2⟩
    · unfold catalogStep at h1
      cases hpl : parseCatalogLine l with
      | none =>
        rw [hpl] at h1
        exact Or.inl h1
      | some q =>
        rw [hpl] at h1
        obtain ⟨n, a⟩ := q
        rcases mem_dictInsert h1 with h2 | ⟨h2, _⟩
        · exact Or.inr ⟨l, by simp, by rw [hpl, h2]⟩
        · exact Or.inl h2
    · exact Or.inr ⟨l2, List.mem_cons_of_mem l hl2, hp2⟩

/-! ### Claim theorems -/

/-- The C1 run: two capacity-1 dispensers for АИ-92 and two customers arriving
at 00:00, both accepted, both scheduled (deterministic durations) to complete
at 00:01. -/
def spec_C1_run : Except String (List LogEntry × SimState) :=
  mainRun (fun _ => 0) (.ok ["1 1 АИ-92", "2 1 АИ-92"])
    ["00:00 10 АИ-92", "00:00 10 АИ-92"]

/-- C1: every accepted request should produce exactly one completion event
that is drained exactly once, leaving every queueLength at 0 after the final
drain — including when two accepted requests complete at the same minute.
The code stores pending events in a dict keyed by completion time, so the
second event at minute 1 overwrites the first.  In this run both customers
are accepted (20 litres of АИ-92 sold, no lost customers) and the timeline is
drained to empty, yet dispenser 1's queueLength is still 1 (and its
`previous_time` still 0): its completion event was silently discarded and
never applied, violating the claimed invariant. -/
theorem spec_C1_duplicate_finish_time :
    finalAutomatesOf spec_C1_run
      = some [(1, { max_queue := 1, brands := ["АИ-92"], queue := 1, previous_time := 0 }),
              (2, { max_queue := 1, brands := ["АИ-92"], queue := 0, previous_time := 1 })] ∧
    finalEventsOf spec_C1_run = some [] ∧
    soldOf spec_C1_run "АИ-92" = some 20 ∧
    lostOf spec_C1_run = some 0 := by
  refine ⟨?_, ?_, ?_, ?_⟩ <;> decide

/-- A registry whose insertion order is not ascending by id: dispenser 5 was
declared before dispenser 3, and both support АИ-92 with equal (empty)
queues. -/
def spec_C2_registry : List (Int × Automate) :=
  [(5, { max_queue := 1, brands := ["АИ-92"], queue := 0, previous_time := 0 }),
   (3, { max_queue := 1, brands := ["АИ-92"], queue := 0, previous_time := 0 })]

/-- C2 counterexample: the claim says queue ties are broken by the smallest
dispenser id regardless of the registry's insertion order.  Python's `min`
over the dict keys returns the first key in insertion order among those with
minimal queue, so with dispenser 5 inserted before dispenser 3 the selection
returns 5, not 3. -/
theorem spec_C2_counterexample :
    automate_num (suitable_automates { time := 0, volume := 10, brand := "АИ-92" }
      spec_C2_registry) = 5 ∧
    ¬ automate_num (suitable_automates { time := 0, volume := 10, brand := "АИ-92" }
      spec_C2_registry) = 3 :=
  ⟨rfl, by decide⟩

/-- C2 (amended): for every request and registry with nonzero dispenser ids,
the selection returns NONE (0) exactly when no dispenser both supports the
brand and has `queue < max_queue`; otherwise the returned id belongs to a
dispenser that supports the brand, has spare capacity, has the minimum queue
among the eligible dispensers, and is the *first in the registry's insertion
order* among those with the minimal queue (`find?` on the eligible list) —
which coincides with the smallest id only when the registry is ordered by
ascending id. -/
theorem spec_C2_amended (request : Request) (reg : List (Int × Automate))
    (h0 : ∀ p ∈ reg, p.1 ≠ 0) :
    (automate_num (suitable_automates request reg) = 0 ↔
      ∀ p ∈ reg, request.brand ∈ p.2.brands → ¬ p.2.queue < p.2.max_queue) ∧
    (automate_num (suitable_automates request reg) ≠ 0 →
      ∃ a : Automate, (automate_num (suitable_automates request reg), a) ∈ reg ∧
        request.brand ∈ a.brands ∧ a.queue < a.max_queue ∧
        (∀ q ∈ (suitable_automates request reg).filter
            (fun p => decide (p.2.queue < p.2.max_queue)), a.queue ≤ q.2.queue) ∧
        ((suitable_automates request reg).filter
            (fun p => decide (p.2.queue < p.2.max_queue))).find?
            (fun q => decide (q.2.queue ≤ a.queue))
          = some (automate_num (suitable_automates request reg), a)) := by
  have h0s : ∀ p ∈ suitable_automates request reg, p.1 ≠ 0 :=
    fun p hp => h0 p (mem_suitable hp).1
  constructor
  · rw [automate_num_eq_zero_iff h0s]
    constructor
    · intro hf p hp hbr hlt
      have hps : p ∈ suitable_automates request reg := by
        unfold suitable_automates
        rw [List.mem_filter]
        exact ⟨hp, by simpa using hbr⟩
      have : p ∈ (suitable_automates request reg).filter
          (fun p => decide (p.2.queue < p.2.max_queue)) := by
        rw [List.mem_filter]
        exact ⟨hps, by simpa using hlt⟩
      rw [hf] at this
      cases this
    · intro hall
      rw [List.filter_eq_nil_iff]
      intro p hp
      obtain ⟨hpreg, hbr⟩ := mem_suitable hp
      simpa using hall p hpreg hbr
  · intro hne
    cases hf : (suitable_automates request reg).filter
        (fun p => decide (p.2.queue < p.2.max_queue)) with
    | nil => exact absurd (automate_num_of_filter_nil hf) hne
    | cons x xs =>
      obtain ⟨hmem, hmin, hfind⟩ := pickMin_spec xs x
      have hnum := automate_num_of_filter_cons hf
      have hmem_f : pickMin x xs ∈ (suitable_automates request reg).filter
          (fun p => decide (p.2.queue < p.2.max_queue)) := by
        rw [hf]
        exact hmem
      have hmem_s : pickMin x xs ∈ suitable_automates request reg :=
        List.mem_of_mem_filter hmem_f
      obtain ⟨hmem_reg, hbr⟩ := mem_suitable hmem_s
      refine ⟨(pickMin x xs).2, ?_, hbr, ?_, ?_, ?_⟩
      · rw [hnum]
        exact hmem_reg
      · simpa using List.of_mem_filter hmem_f
      · intro q hq
        exact hmin q hq
      · rw [hnum]
        exact hfind

/-- A two-dispenser registry (ids 2 then 7, both with empty queues and spare
capacity for АИ-92) used to witness the amended C2. -/
def spec_C2_witness_registry : List (Int × Automate) :=
  [(2, { max_queue := 1, brands := ["АИ-92"], queue := 0, previous_time := 0 }),
   (7, { max_queue := 2, brands := ["АИ-92"], queue := 0, previous_time := 0 })]

/-- The АИ-92 request used to witness the amended C2. -/
def spec_C2_witness_request : Request := { time := 0, volume := 10, brand := "АИ-92" }

/-- Witness for C2 (amended): on a registry declaring dispenser 2 before
dispenser 7, both eligible with empty queues, the iff-NONE characterisation
holds and the selection returns the first of the tied eligible dispensers. -/
theorem spec_C2_amended_witness :
    (automate_num (suitable_automates spec_C2_witness_request spec_C2_witness_registry) = 0 ↔
      ∀ p ∈ spec_C2_witness_registry,
        spec_C2_witness_request.brand ∈ p.2.brands → ¬ p.2.queue < p.2.max_queue) ∧
    (automate_num (suitable_automates spec_C2_witness_request spec_C2_witness_registry) ≠ 0 →
      ∃ a : Automate,
        (automate_num (suitable_automates spec_C2_witness_request spec_C2_witness_registry), a)
          ∈ spec_C2_witness_registry ∧
        spec_C2_witness_request.brand ∈ a.brands ∧ a.queue < a.max_queue ∧
        (∀ q ∈ (suitable_automates spec_C2_witness_request spec_C2_witness_registry).filter
            (fun p => decide (p.2.queue < p.2.max_queue)), a.queue ≤ q.2.queue) ∧
        ((suitable_automates spec_C2_witness_request spec_C2_witness_registry).filter
            (fun p => decide (p.2.queue < p.2.max_queue))).find?
            (fun q => decide (q.2.queue ≤ a.queue))
          = some (automate_num
              (suitable_automates spec_C2_witness_request spec_C2_witness_registry), a)) :=
  spec_C2_amended spec_C2_witness_request spec_C2_witness_registry (by decide)

/-- C3: starting from a freshly loaded registry (all queues 0, nonnegative
capacities as the data model requires, distinct ids), every dispenser
snapshot printed during the run — after each drained completion and after
each handled arrival — and the final registry satisfy
`0 ≤ queueLength ≤ maxQueue`: the accept path only increments a dispenser
selected with `queue < max_queue`, and the drain paths only decrement a
dispenser that still has a pending completion, hence a positive queue. -/
theorem spec_C3_queue_bounds (var : Nat → Int) (reqs : List Request)
    (auts0 : List (Int × Automate)) (log : List LogEntry) (sfin : SimState)
    (hnd : (auts0.map Prod.fst).Nodup)
    (hinit : ∀ p ∈ auts0, p.2.queue = 0 ∧ 0 ≤ p.2.max_queue)
    (hrun : runSim var reqs (initState auts0) = .ok (log, sfin)) :
    (∀ entry ∈ log, QueueBounds (snapshotOf entry)) ∧ QueueBounds sfin.automates := by
  obtain ⟨hWF2, hsnap⟩ := runSim_WF hrun (initState_WF hnd hinit)
  exact ⟨hsnap, hWF2.2.2.1⟩

/-- The single-dispenser, single-request run used to witness C3. -/
def spec_C3_witness_run : Except String (List LogEntry × SimState) :=
  runSim (fun _ => 0) [{ time := 0, volume := 10, brand := "АИ-92" }]
    (initState [(1, { max_queue := 2, brands := ["АИ-92"], queue := 0, previous_time := 0 })])

/-- The log of the C3 witness run. -/
def spec_C3_witness_log : List LogEntry :=
  [LogEntry.arrive 0 [] false
     [(1, { max_queue := 2, brands := ["АИ-92"], queue := 1, previous_time := 0 })],
   LogEntry.finish 1
     { num := 1, arrival_time := 0, brand := "АИ-92", volume := 10, duration := 1 }
     [(1, { max_queue := 2, brands := ["АИ-92"], queue := 0, previous_time := 1 })]]

/-- The final state of the C3 witness run. -/
def spec_C3_witness_state : SimState where
  automates := [(1, { max_queue := 2, brands := ["АИ-92"], queue := 0, previous_time := 1 })]
  finish_events := []
  fuel_sold := [("АИ-80", 0), ("АИ-92", 10), ("АИ-95", 0), ("АИ-98", 0)]
  total_revenue := 6050
  lost_clients := 0
  lost_by_brand := [("АИ-80", 0), ("АИ-92", 0), ("АИ-95", 0), ("АИ-98", 0)]
  draws := 1

/-- Witness for C3 on a concrete run: one dispenser, one accepted customer,
one drained completion; every snapshot and the final registry respect the
queue bounds. -/
theorem spec_C3_queue_bounds_witness :
    spec_C3_witness_run = .ok (spec_C3_witness_log, spec_C3_witness_state) ∧
    ((∀ entry ∈ spec_C3_witness_log, QueueBounds (snapshotOf entry)) ∧
      QueueBounds spec_C3_witness_state.automates) :=
  ⟨rfl,
   spec_C3_queue_bounds (fun _ => 0) [{ time := 0, volume := 10, brand := "АИ-92" }]
     [(1, { max_queue := 2, brands := ["АИ-92"], queue := 0, previous_time := 0 })]
     spec_C3_witness_log spec_C3_witness_state (by decide) (by decide) rfl⟩

/-- C4: on a time-sorted request stream starting from a fresh timeline,
completions are applied in non-decreasing completion-time order across the
whole run (the drain loops always pop the minimum pending key); when each
arrival is handled every pending completion with time ≤ the arrival time has
already been applied (all still-pending times are strictly later); after the
arrival stream is exhausted the remaining events are drained (in the same
globally sorted order) until the timeline is empty; and every applied
completion sets its dispenser's `previous_time` to the completion time in the
snapshot taken just after the decrement. -/
theorem spec_C4_ordering (var : Nat → Int) (reqs : List Request)
    (auts0 : List (Int × Automate)) (log : List LogEntry) (sfin : SimState)
    (hsorted : List.Pairwise (fun a b => a.time ≤ b.time) reqs)
    (hrun : runSim var reqs (initState auts0) = .ok (log, sfin)) :
    List.Sorted (· ≤ ·) (finishTimes log) ∧
    (∀ T pnd bl snap, LogEntry.arrive T pnd bl snap ∈ log → ∀ q ∈ pnd, T < q) ∧
    sfin.finish_events = [] ∧
    (∀ ft info snap, LogEntry.finish ft info snap ∈ log →
      ∃ b, dictGet snap info.num = some b ∧ b.previous_time = ft) := by
  obtain ⟨h1, h2, h3⟩ := runSim_ordering hrun hsorted rfl
  exact ⟨h1, h2, h3, runSim_finish_prev hrun⟩

/-- The two-request run of the spec's section-8 scenario (quantity 5 twice,
at 00:00 and 00:20, one capacity-1 dispenser) used to witness C4. -/
def spec_C4_witness_run : Except String (List LogEntry × SimState) :=
  runSim (fun _ => 0)
    [{ time := 0, volume := 5, brand := "АИ-92" }, { time := 20, volume := 5, brand := "АИ-92" }]
    (initState [(1, { max_queue := 1, brands := ["АИ-92"], queue := 0, previous_time := 0 })])

/-- The log of the C4 witness run: arrival, completion at 00:01, arrival at
00:20 (timeline already drained), completion at 00:21. -/
def spec_C4_witness_log : List LogEntry :=
  [LogEntry.arrive 0 [] false
     [(1, { max_queue := 1, brands := ["АИ-92"], queue := 1, previous_time := 0 })],
   LogEntry.finish 1
     { num := 1, arrival_time := 0, brand := "АИ-92", volume := 5, duration := 1 }
     [(1, { max_queue := 1, brands := ["АИ-92"], queue := 0, previous_time := 1 })],
   LogEntry.arrive 20 [] false
     [(1, { max_queue := 1, brands := ["АИ-92"], queue := 1, previous_time := 1 })],
   LogEntry.finish 21
     { num := 1, arrival_time := 20, brand := "АИ-92", volume := 5, duration := 1 }
     [(1, { max_queue := 1, brands := ["АИ-92"], queue := 0, previous_time := 21 })]]

/-- The final state of the C4 witness run. -/
def spec_C4_witness_state : SimState where
  automates := [(1, { max_queue := 1, brands := ["АИ-92"], queue := 0, previous_time := 21 })]
  finish_events := []
  fuel_sold := [("АИ-80", 0), ("АИ-92", 10), ("АИ-95", 0), ("АИ-98", 0)]
  total_revenue := 6050
  lost_clients := 0
  lost_by_brand := [("АИ-80", 0), ("АИ-92", 0), ("АИ-95", 0), ("АИ-98", 0)]
  draws := 2

/-- Witness for C4 on the spec's section-8 scenario. -/
theorem spec_C4_ordering_witness :
    (spec_C4_witness_run = .ok (spec_C4_witness_log, spec_C4_witness_state) ∧
      spec_C4_witness_state.finish_events = []) ∧
    List.Sorted (· ≤ ·) (finishTimes spec_C4_witness_log) ∧
    (∀ T pnd bl snap, LogEntry.arrive T pnd bl snap ∈ spec_C4_witness_log →
      ∀ q ∈ pnd, T < q) ∧
    (∀ ft info snap, LogEntry.finish ft info snap ∈ spec_C4_witness_log →
      ∃ b, dictGet snap info.num = some b ∧ b.previous_time = ft) := by
  have h := spec_C4_ordering (fun _ => 0)
    [{ time := 0, volume := 5, brand := "АИ-92" }, { time := 20, volume := 5, brand := "АИ-92" }]
    [(1, { max_queue := 1, brands := ["АИ-92"], queue := 0, previous_time := 0 })]
    spec_C4_witness_log spec_C4_witness_state (by decide) rfl
  exact ⟨⟨rfl, h.2.2.1⟩, h.1, h.2.1, h.2.2.2⟩

/-- The error message of a failed run, if any. -/
def errorOf (r : Except String (List LogEntry × SimState)) : Option String :=
  match r with
  | .error e => some e
  | .ok _ => none

/-- C5: with the variation fixed to 0, the service duration is
`max(1, ceil(quantity / 10))` and is at least 1; every completion applied in
such a run happened strictly after its customer's arrival and carried that
deterministic duration; an accepted request schedules its completion at
exactly `max(lastServiceEnd, arrivalTime) + duration`, which exceeds the
arrival time; and the whole schedule depends only on the inputs and the
injected variation values, so equal variation sources reproduce the run. -/
theorem spec_C5_service_time (v : Int) (var1 var2 var : Nat → Int)
    (reqs : List Request) (auts0 : List (Int × Automate)) (log : List LogEntry)
    (sfin : SimState) (request : Request) (s s' : SimState) (l : List LogEntry)
    (hrun : runSim (fun _ => 0) reqs (initState auts0) = .ok (log, sfin))
    (hacc : handleArrival var request s = .ok (l, s'))
    (hch : automate_num (suitable_automates request s.automates) ≠ 0)
    (hvv : ∀ n, var1 n = var2 n) :
    (refuel_time v 0 = max 1 (ceilTen v) ∧ 1 ≤ refuel_time v 0) ∧
    (∀ ft info snap, LogEntry.finish ft info snap ∈ log →
      info.arrival_time < ft ∧ info.duration = max 1 (ceilTen info.volume)) ∧
    (∃ a, dictGet s.automates (automate_num (suitable_automates request s.automates))
        = some a ∧
      s'.finish_events = dictInsert s.finish_events
        (max a.previous_time request.time + (refuel_time request.volume (var s.draws)).toNat)
        { num := automate_num (suitable_automates request s.automates),
          arrival_time := request.time, brand := request.brand,
          volume := request.volume,
          duration := refuel_time request.volume (var s.draws) } ∧
      request.time < max a.previous_time request.time
        + (refuel_time request.volume (var s.draws)).toNat) ∧
    runSim var1 reqs (initState auts0) = runSim var2 reqs (initState auts0) := by
  refine ⟨⟨?_, refuel_time_pos v 0⟩, ?_, ?_, ?_⟩
  · unfold refuel_time
    rw [Int.add_zero]
  · have hOK0 : EventsOKz (initState auts0) := by
      intro e he
      exact absurd he (List.not_mem_nil e)
    exact runSim_eventsOKz hrun (fun n => rfl) hOK0
  · obtain ⟨a, sold, price, ha, _, _, _, hs⟩ := handleArrival_accept_inv hacc hch
    refine ⟨a, ha, ?_, accept_ft_gt a request (var s.draws)⟩
    rw [hs]
  · rw [funext hvv]

/-- The one-request АИ-95 run used to witness C5. -/
def spec_C5_witness_run : Except String (List LogEntry × SimState) :=
  runSim (fun _ => 0) [{ time := 3, volume := 21, brand := "АИ-95" }]
    (initState [(4, { max_queue := 3, brands := ["АИ-95"], queue := 0, previous_time := 0 })])

/-- The log of the C5 witness run (duration `ceil(21/10) = 3`, completion at
minute 6). -/
def spec_C5_witness_log : List LogEntry :=
  [LogEntry.arrive 3 [] false
     [(4, { max_queue := 3, brands := ["АИ-95"], queue := 1, previous_time := 0 })],
   LogEntry.finish 6
     { num := 4, arrival_time := 3, brand := "АИ-95", volume := 21, duration := 3 }
     [(4, { max_queue := 3, brands := ["АИ-95"], queue := 0, previous_time := 6 })]]

/-- The final state of the C5 witness run. -/
def spec_C5_witness_state : SimState where
  automates := [(4, { max_queue := 3, brands := ["АИ-95"], queue := 0, previous_time := 6 })]
  finish_events := []
  fuel_sold := [("АИ-80", 0), ("АИ-92", 0), ("АИ-95", 21), ("АИ-98", 0)]
  total_revenue := 13650
  lost_clients := 0
  lost_by_brand := [("АИ-80", 0), ("АИ-92", 0), ("АИ-95", 0), ("АИ-98", 0)]
  draws := 1

/-- The initial state of the C5 witness arrival step. -/
def spec_C5_witness_s0 : SimState :=
  initState [(1, { max_queue := 2, brands := ["АИ-92"], queue := 0, previous_time := 0 })]

/-- The state after the C5 witness arrival step under variation `+1`
(duration `ceil(10/10) + 1 = 2`, completion at minute `5 + 2 = 7`). -/
def spec_C5_witness_s1 : SimState where
  automates := [(1, { max_queue := 2, brands := ["АИ-92"], queue := 1, previous_time := 0 })]
  finish_events := [(7, { num := 1, arrival_time := 5, brand := "АИ-92", volume := 10, duration := 2 })]
  fuel_sold := [("АИ-80", 0), ("АИ-92", 10), ("АИ-95", 0), ("АИ-98", 0)]
  total_revenue := 6050
  lost_clients := 0
  lost_by_brand := [("АИ-80", 0), ("АИ-92", 0), ("АИ-95", 0), ("АИ-98", 0)]
  draws := 1

/-- Witness for C5 at quantity 25 (duration 3), the concrete АИ-95 run, and a
concrete accepted arrival. -/
theorem spec_C5_service_time_witness :
    spec_C5_witness_run = .ok (spec_C5_witness_log, spec_C5_witness_state) ∧
    handleArrival (fun _ => 1) { time := 5, volume := 10, brand := "АИ-92" }
        spec_C5_witness_s0
      = .ok ([LogEntry.arrive 5 [] false
          [(1, { max_queue := 2, brands := ["АИ-92"], queue := 1, previous_time := 0 })]],
        spec_C5_witness_s1) ∧
    ((refuel_time 25 0 = max 1 (ceilTen 25) ∧ 1 ≤ refuel_time 25 0) ∧
     (∀ ft info snap, LogEntry.finish ft info snap ∈ spec_C5_witness_log →
       info.arrival_time < ft ∧ info.duration = max 1 (ceilTen info.volume)) ∧
     (∃ a, dictGet spec_C5_witness_s0.automates
          (automate_num (suitable_automates { time := 5, volume := 10, brand := "АИ-92" }
            spec_C5_witness_s0.automates)) = some a ∧
       spec_C5_witness_s1.finish_events = dictInsert spec_C5_witness_s0.finish_events
         (max a.previous_time 5
           + (refuel_time 10 ((fun _ => (1 : Int)) spec_C5_witness_s0.draws)).toNat)
         { num := automate_num (suitable_automates { time := 5, volume := 10, brand := "АИ-92" }
             spec_C5_witness_s0.automates),
           arrival_time := 5, brand := "АИ-92", volume := 10,
           duration := refuel_time 10 ((fun _ => (1 : Int)) spec_C5_witness_s0.draws) } ∧
       (5 : Nat) < max a.previous_time 5
         + (refuel_time 10 ((fun _ => (1 : Int)) spec_C5_witness_s0.draws)).toNat) ∧
     runSim (fun _ => 0) [{ time := 3, volume := 21, brand := "АИ-95" }]
         (initState [(4, { max_queue := 3, brands := ["АИ-95"], queue := 0, previous_time := 0 })])
       = runSim (fun _ => 0) [{ time := 3, volume := 21, brand := "АИ-95" }]
         (initState [(4, { max_queue := 3, brands := ["АИ-95"], queue := 0, previous_time := 0 })])) :=
  ⟨rfl, rfl,
   spec_C5_service_time 25 (fun _ => 0) (fun _ => 0) (fun _ => 1)
     [{ time := 3, volume := 21, brand := "АИ-95" }]
     [(4, { max_queue := 3, brands := ["АИ-95"], queue := 0, previous_time := 0 })]
     spec_C5_witness_log spec_C5_witness_state
     { time := 5, volume := 10, brand := "АИ-92" } spec_C5_witness_s0 spec_C5_witness_s1
     [LogEntry.arrive 5 [] false
       [(1, { max_queue := 2, brands := ["АИ-92"], queue := 1, previous_time := 0 })]]
     rfl rfl (by decide) (fun n => rfl)⟩

/-- C6: the spec says a malformed request line is skipped with a warning and
the simulation proceeds with the remaining valid records.  `get_request`
does return `None` for the malformed line (the skip-and-warn half), but
`main` keeps that `None` in `all_requests`, and
`all_requests.sort(key=lambda x: x['time'])` subscripts it — an unhandled
`TypeError` that aborts the whole run.  The same stream without the
malformed line runs to completion (10 litres sold, nobody lost). -/
theorem spec_C6_malformed_request_crash :
    get_request "запрос" = none ∧
    errorOf (mainRun (fun _ => 0) (.ok ["1 2 АИ-92"]) ["00:05 10 АИ-92", "запрос"])
      = some "TypeError (NoneType is not subscriptable) while sorting all_requests" ∧
    soldOf (mainRun (fun _ => 0) (.ok ["1 2 АИ-92"]) ["00:05 10 АИ-92"]) "АИ-92" = some 10 ∧
    lostOf (mainRun (fun _ => 0) (.ok ["1 2 АИ-92"]) ["00:05 10 АИ-92"]) = some 0 := by
  refine ⟨?_, ?_, ?_, ?_⟩ <;> decide

/-- C7 counterexample: the claim says an unreadable catalog source is
propagated to the caller as a fatal error that aborts the run.  In the code
both `except` arms swallow the failure: `get_information` returns the empty
registry, and the run proceeds normally (no error; the single customer is
merely lost because there are no dispensers). -/
theorem spec_C7_counterexample :
    get_information (Except.error "SourceUnreadable") = [] ∧
    errorOf (mainRun (fun _ => 0) (Except.error "SourceUnreadable") ["00:05 10 АИ-92"])
      = none ∧
    lostOf (mainRun (fun _ => 0) (Except.error "SourceUnreadable") ["00:05 10 АИ-92"])
      = some 1 := by
  refine ⟨?_, ?_, ?_⟩ <;> decide

/-- C7 (amended): the catalog load skips each malformed line (loading any
line list gives the same registry as loading only its parseable lines),
every returned entry comes from some input line that parses to it, and an
unreadable source is caught inside the loader, which returns the empty
registry instead of propagating the failure — the load itself never
aborts. -/
theorem spec_C7_amended (e : String) (lines : List String) (p : Int × Automate)
    (hp : p ∈ get_information (.ok lines)) :
    get_information (Except.error e) = [] ∧
    get_information (.ok lines)
      = get_information (.ok (lines.filter (fun l => (parseCatalogLine l).isSome))) ∧
    ∃ l ∈ lines, parseCatalogLine l = some p := by
  refine ⟨rfl, ?_, ?_⟩
  · show (lines.filter strNonblank).foldl catalogStep []
      = ((lines.filter (fun l => (parseCatalogLine l).isSome)).filter strNonblank).foldl
          catalogStep []
    rw [catalogFold_filter (lines.filter strNonblank) [], List.filter_comm]
  · rcases catalogFold_mem (lines.filter strNonblank) [] p hp with h1 | ⟨l, hl, hpl⟩
    · cases h1
    · exact ⟨l, List.mem_of_mem_filter hl, hpl⟩

/-- Witness for C7 (amended) on a three-line catalog with one malformed
line. -/
theorem spec_C7_amended_witness :
    get_information (Except.error "boom") = [] ∧
    get_information (.ok ["1 2 АИ-92", "мусор", "3 1 АИ-95 АИ-98"])
      = get_information (.ok (["1 2 АИ-92", "мусор", "3 1 АИ-95 АИ-98"].filter
          (fun l => (parseCatalogLine l).isSome))) ∧
    ∃ l ∈ ["1 2 АИ-92", "мусор", "3 1 АИ-95 АИ-98"],
      parseCatalogLine l
        = some (1, { max_queue := 2, brands := ["АИ-92"], queue := 0, previous_time := 0 }) :=
  spec_C7_amended "boom" ["1 2 АИ-92", "мусор", "3 1 АИ-95 АИ-98"]
    (1, { max_queue := 2, brands := ["АИ-92"], queue := 0, previous_time := 0 }) (by decide)

/-- C8 counterexample: a well-formed request for АИ-100 — a brand no
dispenser supports, but also not one of the four hardcoded statistics keys —
is not recorded as lost: the per-brand counter update raises `KeyError` and
the run aborts. -/
theorem spec_C8_counterexample :
    errorOf (handleArrival (fun _ => 0) { time := 0, volume := 10, brand := "АИ-100" }
      (initState [])) = some "KeyError lost_clients_by_brand" := by
  decide

/-- C8 (amended): for every well-formed request whose brand no dispenser in
the registry supports *and whose brand is a key of the per-brand lost
dictionary* (one of the four hardcoded brands), the arrival is recorded as
lost — the global counter and that brand's counter each grow by exactly 1 —
no dispenser's state changes, and the arrival time plays no role (the
conclusion holds for every `request.time`). -/
theorem spec_C8_amended (var : Nat → Int) (request : Request) (s : SimState) (c : Nat)
    (hzero : ∀ p ∈ s.automates, request.brand ∉ p.2.brands)
    (hc : dictGet s.lost_by_brand request.brand = some c) :
    handleArrival var request s = .ok
      ([LogEntry.arrive request.time (s.finish_events.map Prod.fst) true s.automates],
       { s with
          lost_clients := s.lost_clients + 1,
          lost_by_brand := dictInsert s.lost_by_brand request.brand (c + 1) }) ∧
    dictGet (dictInsert s.lost_by_brand request.brand (c + 1)) request.brand
      = some (c + 1) ∧
    ({ s with
        lost_clients := s.lost_clients + 1,
        lost_by_brand := dictInsert s.lost_by_brand request.brand (c + 1) } : SimState).automates
      = s.automates := by
  have hch : automate_num (suitable_automates request s.automates) = 0 := by
    rw [suitable_eq_nil hzero]
    rfl
  exact ⟨handleArrival_lost hch hc, dictGet_dictInsert_self _ _ _, rfl⟩

/-- The single-АИ-92-dispenser registry used to witness C8. -/
def spec_C8_witness_registry : List (Int × Automate) :=
  [(1, { max_queue := 2, brands := ["АИ-92"], queue := 0, previous_time := 0 })]

/-- Witness for C8 (amended): an АИ-98 customer at 07:30 facing a registry
whose only dispenser serves АИ-92. -/
theorem spec_C8_amended_witness :
    handleArrival (fun _ => 0) { time := 450, volume := 40, brand := "АИ-98" }
        (initState spec_C8_witness_registry)
      = .ok
      ([LogEntry.arrive 450 [] true spec_C8_witness_registry],
       { initState spec_C8_witness_registry with
          lost_clients := 1,
          lost_by_brand := dictInsert [("АИ-80", 0), ("АИ-92", 0), ("АИ-95", 0), ("АИ-98", 0)]
            "АИ-98" 1 }) ∧
    dictGet (dictInsert [("АИ-80", 0), ("АИ-92", 0), ("АИ-95", 0), ("АИ-98", 0)] "АИ-98" 1)
      "АИ-98" = some 1 ∧
    ({ initState spec_C8_witness_registry with
        lost_clients := 1,
        lost_by_brand := dictInsert [("АИ-80", 0), ("АИ-92", 0), ("АИ-95", 0), ("АИ-98", 0)]
          "АИ-98" 1 } : SimState).automates
      = (initState spec_C8_witness_registry).automates :=
  spec_C8_amended (fun _ => 0) { time := 450, volume := 40, brand := "АИ-98" }
    (initState spec_C8_witness_registry) 0 (by decide) (by decide)

/-- C9: for every well-formed request whose brand is not one of the four
hardcoded brands of the statistics dictionaries, `handleArrival` raises an
unhandled `KeyError` and the run aborts — on the lost path at the per-brand
lost-counter update, and on the accepted path at the per-brand fuel-sold
update (the price lookup would equally fail). -/
theorem spec_C9_keyerror (var : Nat → Int) (request : Request) (s : SimState)
    (hkeysL : s.lost_by_brand.map Prod.fst = BRANDS)
    (hkeysF : s.fuel_sold.map Prod.fst = BRANDS)
    (hbr : request.brand ∉ BRANDS) :
    ∃ e, handleArrival var request s = .error e := by
  have hcL : dictGet s.lost_by_brand request.brand = none := by
    rw [dictGet_eq_none_iff]
    intro p hp he
    apply hbr
    rw [← hkeysL, ← he]
    exact List.mem_map_of_mem Prod.fst hp
  have hcF : dictGet s.fuel_sold request.brand = none := by
    rw [dictGet_eq_none_iff]
    intro p hp he
    apply hbr
    rw [← hkeysF, ← he]
    exact List.mem_map_of_mem Prod.fst hp
  by_cases hch : automate_num (suitable_automates request s.automates) = 0
  · exact ⟨"KeyError lost_clients_by_brand", handleArrival_lost_error hch hcL⟩
  · cases ha : dictGet s.automates (automate_num (suitable_automates request s.automates)) with
    | none =>
      refine ⟨"KeyError automates", ?_⟩
      simp only [handleArrival]
      rw [if_neg hch, ha]
    | some a =>
      refine ⟨"KeyError fuel_sold", ?_⟩
      simp only [handleArrival]
      rw [if_neg hch, ha, hcF]

/-- Witness for C9: an АИ-100 request aborts on the lost path (empty
registry) and on the accepted path (a dispenser that lists АИ-100). -/
theorem spec_C9_keyerror_witness :
    (∃ e, handleArrival (fun _ => 0) { time := 0, volume := 10, brand := "АИ-100" }
      (initState []) = .error e) ∧
    (∃ e, handleArrival (fun _ => 0) { time := 0, volume := 10, brand := "АИ-100" }
      (initState [(1, { max_queue := 2, brands := ["АИ-100"], queue := 0, previous_time := 0 })])
      = .error e) :=
  ⟨spec_C9_keyerror (fun _ => 0) { time := 0, volume := 10, brand := "АИ-100" }
     (initState []) (by decide) (by decide) (by decide),
   spec_C9_keyerror (fun _ => 0) { time := 0, volume := 10, brand := "АИ-100" }
     (initState [(1, { max_queue := 2, brands := ["АИ-100"], queue := 0, previous_time := 0 })])
     (by decide) (by decide) (by decide)⟩

/-- C10: the catalog loader accepts a line declaring dispenser id 0, and the
selection function returns the id 0 both as its NONE sentinel and as a real
selection; whenever the dispenser with id 0 is the selected eligible
dispenser (it is in the registry, supports the brand, has spare capacity,
and the selection over the suitable set returns 0), the caller's falsy test
treats the result as NONE: the customer is counted as lost (globally and for
the brand) and no dispenser's state — in particular dispenser 0's — ever
changes. -/
theorem spec_C10_zero_id (var : Nat → Int) (request : Request) (s : SimState)
    (a : Automate) (c : Nat)
    (hmem : ((0 : Int), a) ∈ s.automates)
    (hbr : request.brand ∈ a.brands)
    (hcap : a.queue < a.max_queue)
    (hsel : automate_num (suitable_automates request s.automates) = 0)
    (hc : dictGet s.lost_by_brand request.brand = some c) :
    parseCatalogLine "0 5 АИ-92"
      = some (0, { max_queue := 5, brands := ["АИ-92"], queue := 0, previous_time := 0 }) ∧
    handleArrival var request s = .ok
      ([LogEntry.arrive request.time (s.finish_events.map Prod.fst) true s.automates],
       { s with
          lost_clients := s.lost_clients + 1,
          lost_by_brand := dictInsert s.lost_by_brand request.brand (c + 1) }) ∧
    ({ s with
        lost_clients := s.lost_clients + 1,
        lost_by_brand := dictInsert s.lost_by_brand request.brand (c + 1) } : SimState).automates
      = s.automates :=
  ⟨by decide, handleArrival_lost hsel hc, rfl⟩

/-- The id-0 registry used to witness C10, as loaded from the catalog line
`0 5 АИ-92`. -/
def spec_C10_witness_registry : List (Int × Automate) :=
  get_information (.ok ["0 5 АИ-92"])

/-- Witness for C10: dispenser 0 is loaded from the catalog, is the only —
hence selected — eligible dispenser for an АИ-92 request, and the customer
is nevertheless lost with dispenser 0 untouched. -/
theorem spec_C10_zero_id_witness :
    parseCatalogLine "0 5 АИ-92"
      = some (0, { max_queue := 5, brands := ["АИ-92"], queue := 0, previous_time := 0 }) ∧
    handleArrival (fun _ => 0) { time := 7, volume := 10, brand := "АИ-92" }
        (initState spec_C10_witness_registry)
      = .ok
      ([LogEntry.arrive 7 [] true
          [(0, { max_queue := 5, brands := ["АИ-92"], queue := 0, previous_time := 0 })]],
       { initState spec_C10_witness_registry with
          lost_clients := 1,
          lost_by_brand := dictInsert [("АИ-80", 0), ("АИ-92", 0), ("АИ-95", 0), ("АИ-98", 0)]
            "АИ-92" 1 }) ∧
    ({ initState spec_C10_witness_registry with
        lost_clients := 1,
        lost_by_brand := dictInsert [("АИ-80", 0), ("АИ-92", 0), ("АИ-95", 0), ("АИ-98", 0)]
          "АИ-92" 1 } : SimState).automates
      = (initState spec_C10_witness_registry).automates := by
  have h := spec_C10_zero_id (fun _ => 0) { time := 7, volume := 10, brand := "АИ-92" }
    (initState spec_C10_witness_registry)
    { max_queue := 5, brands := ["АИ-92"], queue := 0, previous_time := 0 } 0
    (by decide) (by decide) (by decide) (by decide) (by decide)
  exact h
